import Mathlib

/-!
Verification of the HTML serialization / matcher core of a Stencil–Vitest
testing-integration package.

The definitions below are a shallow embedding of
`src/testing/html-serializer.ts` (serializeHtml, serializeElementWithShadow,
prettifyHtml, normalizeHtml), `src/testing/matchers.ts` (toMatchClasses,
toEqualHtml, toEqualLightHtml, toHaveReceivedEventTimes,
toHaveNthReceivedEventDetail, safeEquals) and the per-render-target
`spyOnEvent` registry of `src/testing/render.ts`.

JavaScript strings are modelled as `List Char` / `String`; the regular
expression replacements of the source are modelled as left-to-right scanners
with the same match semantics; JS exceptions are modelled with `Except`.
-/

/-- The JS `\s` character class (the members relevant to this code base:
ASCII whitespace, NBSP and BOM; the exotic unicode space code points are
omitted, they never occur in serialized markup). -/
def isJsWs (c : Char) : Bool :=
  c == ' ' || c == '\t' || c == '\n' || c == '\r' ||
  c == '\x0b' || c == '\x0c' || c == ' ' || c == '﻿'

/-- `s.replace(/\s+/g, ' ')`: every maximal whitespace run becomes one space. -/
def collapseWs : List Char → List Char
  | [] => []
  | [c] => [if isJsWs c then ' ' else c]
  | c₁ :: c₂ :: cs =>
    if isJsWs c₁ && isJsWs c₂ then collapseWs (c₂ :: cs)
    else (if isJsWs c₁ then ' ' else c₁) :: collapseWs (c₂ :: cs)

/-- Scanner for `s.replace(/>\s+</g, '><')` (left-to-right, continuing after
each match, like a JS global replace).  `afterGt` records that the previous
emitted character was `>`; `wsBuf` holds (reversed) the whitespace seen since
that `>`, which is dropped if a `<` follows and flushed otherwise. -/
def remGtWsLtGo (afterGt : Bool) (wsBuf : List Char) : List Char → List Char
  | [] => wsBuf.reverse
  | c :: cs =>
    if afterGt && isJsWs c then remGtWsLtGo afterGt (c :: wsBuf) cs
    else if afterGt && c == '<' && !wsBuf.isEmpty then
      '<' :: remGtWsLtGo false [] cs
    else
      wsBuf.reverse ++
        (if c == '>' then '>' :: remGtWsLtGo true [] cs
         else c :: remGtWsLtGo false [] cs)

/-- `s.replace(/>\s+</g, '><')`. -/
def remGtWsLt (l : List Char) : List Char := remGtWsLtGo false [] l

/-- Scanner for `s.replace(/>\s*</g, '><')` used by the prettifier: same as
`remGtWsLtGo` but the whitespace run may be empty (which makes the
replacement a no-op there). -/
def remGtStarGo (afterGt : Bool) (wsBuf : List Char) : List Char → List Char
  | [] => wsBuf.reverse
  | c :: cs =>
    if afterGt && isJsWs c then remGtStarGo afterGt (c :: wsBuf) cs
    else if afterGt && c == '<' then
      '<' :: remGtStarGo false [] cs
    else
      wsBuf.reverse ++
        (if c == '>' then '>' :: remGtStarGo true [] cs
         else c :: remGtStarGo false [] cs)

/-- `s.replace(/>\s*</g, '><')`. -/
def remGtStar (l : List Char) : List Char := remGtStarGo false [] l

/-- Drop the trailing whitespace of a character list. -/
def dropTrailingWs (l : List Char) : List Char :=
  (l.reverse.dropWhile isJsWs).reverse

/-- JS `String.prototype.trim()` on character lists. -/
def trimChars (l : List Char) : List Char :=
  dropTrailingWs (l.dropWhile isJsWs)

/-- JS `String.prototype.trim()`. -/
def jsTrim (s : String) : String := String.mk (trimChars s.data)

/-- The character-level pipeline of `normalizeHtml`:
`.replace(/\s+/g, ' ')`, then `.replace(/>\s+</g, '><')`, then `.trim()`. -/
def normChars (l : List Char) : List Char :=
  trimChars (remGtWsLt (collapseWs l))

/-- `normalizeHtml` of `html-serializer.ts`:
`html.replace(/\s+/g, ' ').replace(/>\s+</g, '><').trim()`. -/
def normalizeHtml (s : String) : String :=
  String.mk (normChars s.data)

/-! ## The DOM capability model

`MNode` is the minimal Node interface used by `serializeElementWithShadow`:
node kind (`nodeType` 1/3/8/11), `tagName`, optional case-preserving
`localName`, ordered attributes, optional `shadowRoot` (with its
`delegatesFocus` flag), the optional hidden `__childNodes` slot-polyfill
override list, and the public `childNodes` list.  A custom mutual list type
`MNodes` is used so that all serializer recursions are structural. -/

/-- One entry of `elem.attributes`: `name`, optional namespace `prefix`
and `localName` (`none` models JS `null`), and string `value`. -/
structure MAttr where
  name : String
  nsPrefix : Option String
  localName : Option String
  value : String
deriving DecidableEq, Repr

mutual
inductive MNode where
  | element (tagName : String) (localName : Option String) (attrs : List MAttr)
      (shadow : OShadow) (overrideChildNodes : ONodes) (childNodes : MNodes)
  | text (content : String)
  | comment (content : String)
  | fragment (childNodes : MNodes)
deriving DecidableEq, Repr

/-- `elem.shadowRoot`: absent/null, or present with `delegatesFocus`
and its child nodes. -/
inductive OShadow where
  | noShadow
  | mk (delegatesFocus : Bool) (childNodes : MNodes)
deriving DecidableEq, Repr

/-- The optional `__childNodes` slot-polyfill override list. -/
inductive ONodes where
  | noOverride
  | mk (nodes : MNodes)
deriving DecidableEq, Repr

/-- An ordered child-node list. -/
inductive MNodes where
  | nil
  | cons (head : MNode) (tail : MNodes)
deriving DecidableEq, Repr
end

/-- The `VOID_ELEMENTS` set of `html-serializer.ts`. -/
def VOID_ELEMENTS : List String :=
  ["area", "base", "br", "col", "embed", "hr", "img", "input",
   "link", "meta", "param", "source", "track", "wbr"]

/-- `String.prototype.toLowerCase()` (`String.toLower`, written out on the
character list so that it evaluates by kernel reduction). -/
def lowerStr (s : String) : String := String.mk (s.data.map Char.toLower)

/-- `(elem as any).localName || elem.tagName.toLowerCase()` (an empty
`localName` is falsy in JS, like an absent one). -/
def effTagName (tagName : String) (localName : Option String) : String :=
  match localName with
  | some l => if l.isEmpty then lowerStr tagName else l
  | none => lowerStr tagName

/-- One attribute, as emitted inside the opening tag (with the leading
space): namespaced attributes render as `prefix:localName`, an attribute
with empty value renders as a bare boolean attribute. -/
def serAttr (a : MAttr) : String :=
  let attrName :=
    match a.nsPrefix, a.localName with
    | some p, some l =>
      if p.isEmpty || l.isEmpty then a.name else p ++ ":" ++ l
    | _, _ => a.name
  if a.value.isEmpty then " " ++ attrName
  else " " ++ attrName ++ "=\"" ++ a.value ++ "\""

/-- All attributes of the opening tag, in enumeration order. -/
def serAttrs : List MAttr → String
  | [] => ""
  | a :: rest => serAttr a ++ serAttrs rest

/-- The opening tag `<tagname attr="value" ...>`. -/
def serOpenTag (tagName : String) (localName : Option String)
    (attrs : List MAttr) : String :=
  "<" ++ effTagName tagName localName ++ serAttrs attrs ++ ">"

mutual
/-- `serializeElementWithShadow(element, excludeStyles, serializeShadowRoot)`.
The source only ever receives elements and document fragments here; a
top-level text/comment node (on which the source would throw) is modelled
as its child-position contribution. -/
def serNode (ex ss : Bool) : MNode → String
  | .fragment cs => serChildNodes ex ss cs
  | .text s => if s.isEmpty then "" else s
  | .comment s => if s.isEmpty then "" else "<!--" ++ s ++ "-->"
  | .element tagName localName attrs shadow ovr children =>
    serOpenTag tagName localName attrs ++
    serShadowPart ex ss shadow ++
    (match ss, ovr with
     | true, .mk o => serChildNodes ex ss o
     | true, .noOverride => serChildNodes ex ss children
     | false, _ => serChildNodes ex ss children) ++
    (if VOID_ELEMENTS.contains (effTagName tagName localName) then ""
     else "</" ++ effTagName tagName localName ++ ">")

/-- The `<mock:shadow-root ...>...</mock:shadow-root>` block, emitted only
when `serializeShadowRoot` is set and a shadow root is attached. -/
def serShadowPart (ex ss : Bool) : OShadow → String
  | .noShadow => ""
  | .mk delegatesFocus cs =>
    if ss then
      "<mock:shadow-root" ++
      (if delegatesFocus then " shadowrootdelegatesfocus" else "") ++ ">" ++
      serShadowChildren ex ss cs ++ "</mock:shadow-root>"
    else ""

/-- Light-DOM / fragment child serialization: element children recurse, text
children contribute their content if non-empty, comment children contribute
`<!--text-->` if non-empty, any other node kind contributes nothing. -/
def serChildNodes (ex ss : Bool) : MNodes → String
  | .nil => ""
  | .cons n rest =>
    (match n with
     | .element t l a sh o ch => serNode ex ss (.element t l a sh o ch)
     | .text s => if s.isEmpty then "" else s
     | .comment s => if s.isEmpty then "" else "<!--" ++ s ++ "-->"
     | .fragment _ => "") ++
    serChildNodes ex ss rest

/-- Shadow-root child serialization: like `serChildNodes` but `<style>`
elements (by lowercased `tagName`) are skipped when `excludeStyles`. -/
def serShadowChildren (ex ss : Bool) : MNodes → String
  | .nil => ""
  | .cons n rest =>
    (match n with
     | .element t l a sh o ch =>
       if ex && lowerStr t == "style" then ""
       else serNode ex ss (.element t l a sh o ch)
     | .text s => if s.isEmpty then "" else s
     | .comment s => if s.isEmpty then "" else "<!--" ++ s ++ "-->"
     | .fragment _ => "") ++
    serShadowChildren ex ss rest
end

/-! ## The prettifier (`prettifyHtml`) -/

/-- `String.prototype.startsWith`, on the character lists. -/
def strStartsWith (s pat : String) : Bool := pat.data.isPrefixOf s.data

/-- `String.prototype.endsWith`, on the character lists. -/
def strEndsWith (s pat : String) : Bool := pat.data.isSuffixOf s.data

/-- Indentation of `n` levels, 2 spaces each. -/
def indentStr (n : Nat) : String := String.mk (List.replicate (n * 2) ' ')

/-- Tokenizer for `html.split(/(<[^>]+>)/)`: alternating text and tag parts
(tag = `<`, one or more non-`>` characters, `>`), scanning left to right.
`cur` is the text accumulated so far (reversed), `inTag` buffers a candidate
tag body (reversed) after an unmatched `<`. -/
def splitTagsGo (cur : List Char) (inTag : Option (List Char)) :
    List Char → List String
  | [] =>
    match inTag with
    | none => [String.mk cur.reverse]
    | some buf => [String.mk (cur.reverse ++ '<' :: buf.reverse)]
  | c :: cs =>
    match inTag with
    | none =>
      if c == '<' then splitTagsGo cur (some []) cs
      else splitTagsGo (c :: cur) none cs
    | some buf =>
      if c == '>' then
        if buf.isEmpty then splitTagsGo ('>' :: '<' :: cur) none cs
        else
          String.mk cur.reverse ::
          String.mk ('<' :: (buf.reverse ++ ['>'])) ::
          splitTagsGo [] none cs
      else splitTagsGo cur (some (c :: buf)) cs

/-- `html.split(/(<[^>]+>)/)` with the captured tags kept as parts. -/
def splitKeepTags (l : List Char) : List String := splitTagsGo [] none l

/-- `part.match(/<\/([^>\s]+)/)?.[1]`: the first `</` in the part followed by
a non-empty run of characters that are neither `>` nor whitespace. -/
def closingNameFrom : List Char → Option (List Char)
  | '<' :: '/' :: rest =>
    let cap := rest.takeWhile (fun c => !(c == '>') && !isJsWs c)
    if cap.isEmpty then closingNameFrom ('/' :: rest) else some cap
  | _ :: cs => closingNameFrom cs
  | [] => none

/-- The dynamic `^\s*<TAG[^>]*>$` test used to merge a closing tag onto the
line of an empty element's opening tag (the `TAG` characters are matched
literally, as in the source where only `:` is escaped). -/
def isOpenTagLine (tag : List Char) (line : List Char) : Bool :=
  match line.dropWhile isJsWs with
  | '<' :: rest =>
    tag.isPrefixOf rest &&
    (let after := rest.drop tag.length
     !after.isEmpty && after.dropWhile (fun c => !(c == '>')) == ['>'])
  | _ => false

/-- The part-processing loop of `prettifyHtml`; `lines` is accumulated in
reverse (head = most recently emitted line). -/
def prettyLoop (indentLevel : Nat) (lines : List String) :
    List String → List String
  | [] => lines
  | rawPart :: parts =>
    let part := jsTrim rawPart
    if part.isEmpty then prettyLoop indentLevel lines parts
    else if strStartsWith part "</" then
      -- closing tag: decrease indent first (Math.max 0 is Nat subtraction)
      let indentLevel' := indentLevel - 1
      match closingNameFrom part.data, lines with
      | some tag, lastLine :: restLines =>
        if isOpenTagLine tag lastLine.data then
          prettyLoop indentLevel' ((lastLine ++ part) :: restLines) parts
        else
          prettyLoop indentLevel' ((indentStr indentLevel' ++ part) :: lines) parts
      | _, _ =>
        prettyLoop indentLevel' ((indentStr indentLevel' ++ part) :: lines) parts
    else if strStartsWith part "<" then
      if strEndsWith part "/>" then
        prettyLoop indentLevel ((indentStr indentLevel ++ part) :: lines) parts
      else
        prettyLoop (indentLevel + 1) ((indentStr indentLevel ++ part) :: lines) parts
    else
      prettyLoop indentLevel ((indentStr indentLevel ++ part) :: lines) parts

/-- `prettifyHtml` of `html-serializer.ts`. -/
def prettifyHtml (html : String) : String :=
  let cleaned := trimChars (remGtStar (collapseWs html.data))
  String.intercalate "\n" (prettyLoop 0 [] (splitKeepTags cleaned)).reverse

/-! ## `serializeHtml` -/

/-- The options record, with the defaults of the source. -/
structure SerializeOptions where
  serializeShadowRoot : Bool := true
  pretty : Bool := true
  excludeStyles : Bool := true
deriving DecidableEq, Repr

/-- The input of `serializeHtml`: a node tree, or an already-serialized
markup string (identity passthrough). -/
inductive SerializeInput where
  | str (s : String)
  | node (n : MNode)
deriving DecidableEq, Repr

/-- `serializeHtml(input, options)` of `html-serializer.ts`. -/
def serializeHtml (input : SerializeInput) (options : SerializeOptions) : String :=
  match input with
  | .str s => s
  | .node n =>
    let html := serNode options.excludeStyles options.serializeShadowRoot n
    if options.pretty then prettifyHtml html else html

mutual
/-- The same tree with every shadow root and every slot-polyfill override
list removed (used to state what `serializeShadowRoot:false` ignores). -/
def stripShadow : MNode → MNode
  | .element t l a _ _ ch => .element t l a .noShadow .noOverride (stripShadowList ch)
  | .text s => .text s
  | .comment s => .comment s
  | .fragment cs => .fragment (stripShadowList cs)

def stripShadowList : MNodes → MNodes
  | .nil => .nil
  | .cons n rest => .cons (stripShadow n) (stripShadowList rest)
end

/-- Scanner for the substring test: does `p` start at some position? -/
def strContainsGo (p : List Char) : List Char → Bool
  | [] => p.isEmpty
  | c :: cs => p.isPrefixOf (c :: cs) || strContainsGo p cs

/-- Substring test on strings (is `pat` a contiguous substring of `s`?). -/
def strContains (s pat : String) : Bool :=
  strContainsGo pat.data s.data

/-! ## JS values, `JSON.stringify`, `safeEquals`

Event `detail` payloads are arbitrary JS values, possibly with cyclic object
references.  They are modelled as a value grammar `JVal` whose objects live
in an explicit heap (`JStore`, address-indexed), so that cyclic object graphs
are representable.  `JSON.stringify` throwing on a cycle is modelled as the
serializer returning `none`. -/

/-- A JS value: a primitive or a reference to a heap object. -/
inductive JVal where
  | jnull
  | jbool (b : Bool)
  | jnum (n : Int)
  | jstr (s : String)
  | jref (addr : Nat)
deriving DecidableEq, Repr

/-- An object: ordered own enumerable properties. -/
abbrev JObj := List (String × JVal)

/-- The heap of objects, indexed by address. -/
abbrev JStore := List JObj

/-- Property lookup `obj[key]` (`none` = `undefined`). -/
def objGet (o : JObj) (key : String) : Option JVal :=
  (o.find? (fun kv => kv.1 == key)).map (fun kv => kv.2)

/-- JS strict equality `===` on modelled values: primitive value equality,
reference identity for objects. -/
def strictEq : JVal → JVal → Bool
  | .jnull, .jnull => true
  | .jbool a, .jbool b => a == b
  | .jnum a, .jnum b => a == b
  | .jstr a, .jstr b => a == b
  | .jref a, .jref b => a == b
  | _, _ => false

/-- `a[key] === b[key]` where either side may be `undefined`. -/
def optStrictEq : Option JVal → Option JVal → Bool
  | some a, some b => strictEq a b
  | none, none => true
  | _, _ => false

/-- `JSON.stringify` with the active object stack for cycle detection
(`none` = the `TypeError` JSON.stringify throws on a circular structure).
`fuel` only bounds the recursion; with the initial fuel of
`jsonStringify` it cannot run out before a cycle is detected, because the
stack grows only with distinct addresses. -/
def stringifyVal (store : JStore) : Nat → List Nat → JVal → Option String
  | _, _, .jnull => some "null"
  | _, _, .jbool b => some (if b then "true" else "false")
  | _, _, .jnum n => some (toString n)
  | _, _, .jstr s => some ("\"" ++ s ++ "\"")
  | 0, _, .jref _ => none
  | fuel + 1, stack, .jref a =>
    if a ∈ stack then none
    else
      match store.get? a with
      | none => some "null"
      | some o =>
        let fields := o.foldr
          (fun kv acc =>
            match stringifyVal store fuel (a :: stack) kv.2, acc with
            | some s, some rest => some (("\"" ++ kv.1 ++ "\":" ++ s) :: rest)
            | _, _ => none)
          (some [])
        match fields with
        | some fs => some ("\x7b" ++ String.intercalate "," fs ++ "\x7d")
        | none => none

/-- `JSON.stringify(v)`; `none` models the thrown `TypeError` on a cyclic
structure. -/
def jsonStringify (store : JStore) (v : JVal) : Option String :=
  stringifyVal store (store.length + 1) [] v

/-- The `catch` block of `safeEquals`: shallow own-key comparison for two
non-null objects, strict equality otherwise. -/
def shallowFallback (store : JStore) (a b : JVal) : Bool :=
  match a, b with
  | .jref ra, .jref rb =>
    let oa := (store.get? ra).getD []
    let ob := (store.get? rb).getD []
    let keysA := oa.map Prod.fst
    let keysB := ob.map Prod.fst
    keysA.length == keysB.length &&
      keysA.all (fun k => optStrictEq (objGet oa k) (objGet ob k))
  | _, _ => strictEq a b

/-- `safeEquals(a, b)` of `matchers.ts`: compare `JSON.stringify` outputs;
if either side throws (cyclic reference), fall back to the shallow
comparison.  Total: it never propagates the exception. -/
def safeEquals (store : JStore) (a b : JVal) : Bool :=
  match jsonStringify store a, jsonStringify store b with
  | some sa, some sb => sa == sb
  | _, _ => shallowFallback store a b

/-- JS `String(value)` for the values that reach it in `safeStringify`
(only objects whose stringification threw, plus primitives). -/
def jsToString : JVal → String
  | .jnull => "null"
  | .jbool b => if b then "true" else "false"
  | .jnum n => toString n
  | .jstr s => s
  | .jref _ => "[object Object]"

/-- `safeStringify(value)` of `matchers.ts`. -/
def safeStringify (store : JStore) (v : JVal) : String :=
  match jsonStringify store v with
  | some s => s
  | none => jsToString v

/-! ## Event spies -/

/-- A captured `CustomEvent` (only its `detail` matters to the matchers). -/
structure CEvent where
  detail : JVal
deriving DecidableEq, Repr

/-- The `EventSpy` record of `types.ts`. -/
structure EventSpy where
  eventName : String
  events : List CEvent
  firstEvent : Option CEvent
  lastEvent : Option CEvent
  length : Nat
deriving DecidableEq, Repr

/-- The spy object as freshly created by `spyOnEvent`. -/
def newSpy (eventName : String) : EventSpy :=
  { eventName := eventName, events := [], firstEvent := none,
    lastEvent := none, length := 0 }

/-- The event listener installed by `spyOnEvent`: push the event, update
`length` and `lastEvent`, set `firstEvent` iff this is the first event. -/
def listenerStep (spy : EventSpy) (e : CEvent) : EventSpy :=
  let events := spy.events ++ [e]
  { spy with
    events := events
    length := events.length
    lastEvent := some e
    firstEvent := if events.length == 1 then some e else spy.firstEvent }

/-- The per-render-target spy registry: the `WeakMap` entry for the
container (`none` = `eventSpies.has(container)` is false) plus the set of
listeners registered on the element. -/
structure SpyRegistry where
  entry : Option (List EventSpy)
  listeners : List String
deriving DecidableEq, Repr

/-- The registry of a freshly rendered target. -/
def emptyRegistry : SpyRegistry := { entry := none, listeners := [] }

/-- `spyOnEvent(eventName)` of `render.ts` for one render target: if the
registry already has an entry for the container, return
`entry.find(spy => spy.eventName === eventName)` (which is `undefined`,
modelled `none`, when no spy for that name exists) without touching the
registry; otherwise create a spy, register the listener, and store it. -/
def spyOnEvent (st : SpyRegistry) (eventName : String) :
    Option EventSpy × SpyRegistry :=
  match st.entry with
  | some spies => (spies.find? (fun spy => spy.eventName == eventName), st)
  | none =>
    let spy := newSpy eventName
    (some spy, { entry := some [spy], listeners := st.listeners ++ [eventName] })

/-! ## Matchers -/

/-- The `{ pass, message }` record every matcher returns (`message` is the
string the lazy message thunk would produce). -/
structure MatchRes where
  pass : Bool
  message : String
deriving DecidableEq, Repr

/-- `elem.getAttribute(name)` on the capability model (`none` for
non-element nodes, which the matchers never receive). -/
def elemGetAttribute (n : MNode) (name : String) : Option String :=
  match n with
  | .element _ _ attrs _ _ _ =>
    (attrs.find? (fun a => a.name == name)).map (fun a => a.value)
  | _ => none

/-- Maximal non-whitespace runs of a character list: the value of
`s.split(/\s+/).filter(Boolean)` (the split can only contribute an empty
string at the ends, which the filter drops). -/
def splitNonWsGo (cur : List Char) : List Char → List String
  | [] => if cur.isEmpty then [] else [String.mk cur.reverse]
  | c :: cs =>
    if isJsWs c then
      if cur.isEmpty then splitNonWsGo [] cs
      else String.mk cur.reverse :: splitNonWsGo [] cs
    else splitNonWsGo (c :: cur) cs

/-- `s.split(/\s+/).filter(Boolean)`. -/
def splitWsFiltered (s : String) : List String := splitNonWsGo [] s.data

/-- The class list the matcher reads from the element:
`(received.getAttribute('class') || '').split(/\s+/).filter(Boolean)`. -/
def actualClassList (received : MNode) : List String :=
  splitWsFiltered ((elemGetAttribute received "class").getD "")

/-- The expected class list: `[...classNames].filter(Boolean)`. -/
def expectedClassList (classNames : List String) : List String :=
  classNames.filter (fun s => !s.isEmpty)

/-- Lexicographic comparison of code-point sequences (JS `<=` on strings /
the default `Array.prototype.sort()` comparator's order). -/
def cmpCharsLe : List Char → List Char → Bool
  | [], _ => true
  | _ :: _, [] => false
  | a :: as, b :: bs =>
    if a.toNat < b.toNat then true
    else if b.toNat < a.toNat then false
    else cmpCharsLe as bs

/-- Lexicographic string order. -/
def strLe (a b : String) : Bool := cmpCharsLe a.data b.data

/-- `strLe` as a relation, for the sorting lemmas. -/
def strLeRel (a b : String) : Prop := strLe a b = true

instance : DecidableRel strLeRel := fun a b => instDecidableEqBool (strLe a b) true

/-- JS `Array.prototype.sort()` on string arrays (ascending lexicographic);
modelled with insertion sort, which produces the same sorted list. -/
def jsSortStrings (l : List String) : List String :=
  List.insertionSort strLeRel l

/-- `toMatchClasses(received, classNames)` of `matchers.ts`. -/
def toMatchClasses (received : MNode) (classNames : List String) : MatchRes :=
  let actualClasses := jsSortStrings (actualClassList received)
  let expectedClasses := jsSortStrings (expectedClassList classNames)
  let pass := actualClasses.length == expectedClasses.length &&
    (actualClasses.zip expectedClasses).all (fun p => p.1 == p.2)
  { pass := pass
    message :=
      if pass then
        "Expected element not to have exactly classes [" ++
          String.intercalate ", " classNames ++ "]"
      else
        "Expected element to have exactly classes [" ++
          String.intercalate ", " classNames ++ "], but got [" ++
          String.intercalate ", " actualClasses ++ "]" }

/-- The value a test passes to `expect(...)` before calling an HTML matcher:
`null`/`undefined`, a promise-like value (has a `then` method), a string,
or a DOM node of the capability model. -/
inductive ReceivedVal where
  | jsNull
  | jsUndefined
  | promiseLike
  | str (s : String)
  | node (n : MNode)
deriving DecidableEq, Repr

/-- The usage-error cases of the HTML matchers: null/undefined, promise-like,
or a node that is neither an element nor a shadow-root/fragment. -/
def badReceived : ReceivedVal → Bool
  | .jsNull => true
  | .jsUndefined => true
  | .promiseLike => true
  | .str _ => false
  | .node n =>
    match n with
    | .text _ => true
    | .comment _ => true
    | _ => false

/-- `toEqualHtml(received, expected)` of `matchers.ts`.  A thrown
`Error`/`TypeError` is `Except.error` with its message.  `parse` is the
external DOM parser composed with the `innerHTML || textContent || ''`
read-back used for string inputs (it lives in the DOM-environment
collaborator, outside this repository). -/
def toEqualHtml (parse : String → String) (received : ReceivedVal)
    (expected : String) : Except String MatchRes :=
  let finish := fun (receivedHtml : String) =>
    let expectedHtml := normalizeHtml (jsTrim expected)
    let receivedHtml := normalizeHtml receivedHtml
    let pass := receivedHtml == expectedHtml
    Except.ok
      { pass := pass
        message :=
          if pass then
            "Expected HTML not to equal:\n" ++ prettifyHtml expectedHtml
          else
            "Expected HTML to equal:\n" ++ prettifyHtml expectedHtml ++
            "\n\nReceived:\n" ++ prettifyHtml receivedHtml }
  match received with
  | .jsNull => .error "expect.toEqualHtml() received value is \"null\""
  | .jsUndefined => .error "expect.toEqualHtml() received value is \"undefined\""
  | .promiseLike =>
    .error "Element must be a resolved value, not a promise, before it can be tested"
  | .str s => finish (parse s)
  | .node n =>
    match n with
    | .fragment cs =>
      finish (serializeHtml (.node (.fragment cs)) { serializeShadowRoot := true })
    | .element t l a sh o ch =>
      finish (serializeHtml (.node (.element t l a sh o ch))
        { serializeShadowRoot := true })
    | .text _ =>
      .error "expect.toEqualHtml() value should be an element, shadow root, or string"
    | .comment _ =>
      .error "expect.toEqualHtml() value should be an element, shadow root, or string"

/-- `toEqualLightHtml(received, expected)` of `matchers.ts`: same as
`toEqualHtml` but serializing with `serializeShadowRoot: false`. -/
def toEqualLightHtml (parse : String → String) (received : ReceivedVal)
    (expected : String) : Except String MatchRes :=
  let finish := fun (receivedHtml : String) =>
    let expectedHtml := normalizeHtml (jsTrim expected)
    let receivedHtml := normalizeHtml receivedHtml
    let pass := receivedHtml == expectedHtml
    Except.ok
      { pass := pass
        message :=
          if pass then
            "Expected Light DOM HTML not to equal:\n" ++ prettifyHtml expectedHtml
          else
            "Expected Light DOM HTML to equal:\n" ++ prettifyHtml expectedHtml ++
            "\n\nReceived:\n" ++ prettifyHtml receivedHtml }
  match received with
  | .jsNull => .error "expect.toEqualLightHtml() received value is \"null\""
  | .jsUndefined => .error "expect.toEqualLightHtml() received value is \"undefined\""
  | .promiseLike =>
    .error "Element must be a resolved value, not a promise, before it can be tested"
  | .str s => finish (parse s)
  | .node n =>
    match n with
    | .fragment cs =>
      finish (serializeHtml (.node (.fragment cs)) { serializeShadowRoot := false })
    | .element t l a sh o ch =>
      finish (serializeHtml (.node (.element t l a sh o ch))
        { serializeShadowRoot := false })
    | .text _ =>
      .error "expect.toEqualLightHtml() value should be an element, shadow root, or string"
    | .comment _ =>
      .error "expect.toEqualLightHtml() value should be an element, shadow root, or string"

/-- `toHaveReceivedEventTimes(received, count)` of `matchers.ts`. -/
def toHaveReceivedEventTimes (received : EventSpy) (count : Nat) : MatchRes :=
  let pass := received.length == count
  { pass := pass
    message :=
      if pass then
        "Expected event \"" ++ received.eventName ++
        "\" not to have been received " ++ toString count ++ " times"
      else
        "Expected event \"" ++ received.eventName ++
        "\" to have been received " ++ toString count ++
        " times, but it was received " ++ toString received.length ++ " times" }

/-- `toHaveNthReceivedEventDetail(received, index, detail)` of `matchers.ts`.
The only array access, `received.events[index]`, happens after the
`length === 0` and `index < 0 || index >= length` guards; an out-of-range
access would be the `Except.error` branch. -/
def toHaveNthReceivedEventDetail (store : JStore) (received : EventSpy)
    (index : Int) (detail : JVal) : Except String MatchRes :=
  if received.length == 0 then
    .ok
      { pass := false
        message := "Expected event \"" ++ received.eventName ++
          "\" to have been received with detail, but no events were received" }
  else if index < 0 || (received.length : Int) ≤ index then
    .ok
      { pass := false
        message := "Expected event at index " ++ toString index ++
          ", but only " ++ toString received.length ++ " events were received" }
  else
    match received.events.get? index.toNat with
    | none => .error "out-of-bounds access on received.events"
    | some e =>
      let pass := safeEquals store e.detail detail
      .ok
        { pass := pass
          message :=
            if pass then
              "Expected event at index " ++ toString index ++
              " detail not to equal " ++ safeStringify store detail
            else
              "Expected event at index " ++ toString index ++
              " detail to equal " ++ safeStringify store detail ++
              ", but got " ++ safeStringify store e.detail }

/-- The shallow comparison the specification describes for the cyclic
fallback: for two non-null objects, equal own-key sets with strictly equal
values key by key; strict equality otherwise. -/
def shallowSpec (store : JStore) (a b : JVal) : Prop :=
  match a, b with
  | .jref ra, .jref rb =>
    let oa := (store.get? ra).getD []
    let ob := (store.get? rb).getD []
    (∀ k, k ∈ oa.map Prod.fst ↔ k ∈ ob.map Prod.fst) ∧
    (∀ k, k ∈ oa.map Prod.fst →
      ∃ va vb, objGet oa k = some va ∧ objGet ob k = some vb ∧ strictEq va vb = true)
  | _, _ => strictEq a b = true

/-- A store whose objects have no duplicate property names (always true of
real JS objects). -/
def storeNodupKeys (store : JStore) : Prop :=
  ∀ o ∈ store, (o.map Prod.fst).Nodup

/-! ## Normal forms of `normalizeHtml` outputs, and concrete inputs -/

/-- Every whitespace character is a plain space. -/
def spaceOnlyWs (l : List Char) : Bool := l.all (fun c => !isJsWs c || c == ' ')

/-- No two adjacent whitespace characters. -/
def noAdjWs : List Char → Bool
  | [] => true
  | [_] => true
  | a :: b :: t => !(isJsWs a && isJsWs b) && noAdjWs (b :: t)

/-- After skipping leading whitespace, the next character is `<`. -/
def afterWsLt : List Char → Bool
  | [] => false
  | c :: cs => if isJsWs c then afterWsLt cs else c == '<'

/-- A non-empty whitespace run followed by `<`. -/
def wsThenLt : List Char → Bool
  | [] => false
  | c :: cs => isJsWs c && afterWsLt cs

/-- Some position starts a `>\s+<` match. -/
def hasGtWsLt : List Char → Bool
  | [] => false
  | c :: cs => (c == '>' && wsThenLt cs) || hasGtWsLt cs

/-- The head, if any, is not whitespace. -/
def headNotWs (l : List Char) : Prop := ∀ c, l.head? = some c → isJsWs c = false

/-- The last character, if any, is not whitespace. -/
def lastNotWs (l : List Char) : Prop := ∀ c, l.getLast? = some c → isJsWs c = false

/-- The normal form `normalizeHtml` produces: single plain spaces only, no
whitespace between `>` and `<`, trimmed ends. -/
def IsNormalChars (l : List Char) : Prop :=
  spaceOnlyWs l = true ∧ noAdjWs l = true ∧ hasGtWsLt l = false ∧
  headNotWs l ∧ lastNotWs l

/-- An element with both a public child list (`PUBLIC` text) and a
slot-polyfill override child list (`OVERRIDE` text). -/
def c1Element : MNode :=
  .element "div" none [] .noShadow (.mk (.cons (.text "OVERRIDE") .nil))
    (.cons (.text "PUBLIC") .nil)

/-- A tree whose own text content spells the shadow-root sentinel. -/
def c4Fragment : MNode :=
  .fragment (.cons (.text "<mock:shadow-root></mock:shadow-root>") .nil)

/-- A one-object heap whose object references itself (`a.self === a`). -/
def cyclicStore : JStore := [[("self", JVal.jref 0)]]

/-- Three dispatched events with details `1`, `2`, `3`. -/
def c7Events : List CEvent := [⟨.jnum 1⟩, ⟨.jnum 2⟩, ⟨.jnum 3⟩]

/-! # Theorems -/

/-! ## Serializer structure lemmas -/

/-- With `serializeShadowRoot := false`, child serialization coincides with
serializing the shadow- and override-stripped tree (the flag no longer
matters on the stripped tree). -/
theorem serChildNodes_stripShadow (ex : Bool) :
    ∀ ns, serChildNodes ex false ns = serChildNodes ex true (stripShadowList ns)
  | .nil => rfl
  | .cons (.element t l a sh o ch) rest => by
    have ih1 := serChildNodes_stripShadow ex ch
    have ih2 := serChildNodes_stripShadow ex rest
    cases sh <;>
      simp [serChildNodes, stripShadowList, stripShadow, serNode, serShadowPart,
        ih1, ih2]
  | .cons (.text s) rest => by
    have ih := serChildNodes_stripShadow ex rest
    simp [serChildNodes, stripShadowList, stripShadow, ih]
  | .cons (.comment s) rest => by
    have ih := serChildNodes_stripShadow ex rest
    simp [serChildNodes, stripShadowList, stripShadow, ih]
  | .cons (.fragment cs) rest => by
    have ih := serChildNodes_stripShadow ex rest
    simp [serChildNodes, stripShadowList, stripShadow, ih]

/-- `serializeShadowRoot := false` serializes exactly the stripped tree. -/
theorem serNode_stripShadow (ex : Bool) (n : MNode) :
    serNode ex false n = serNode ex true (stripShadow n) := by
  cases n with
  | element t l a sh o ch =>
    cases sh <;>
      simp [serNode, stripShadow, serShadowPart, serChildNodes_stripShadow]
  | text s => rfl
  | comment s => rfl
  | fragment cs => simp [serNode, stripShadow, serChildNodes_stripShadow]

/-! ## C1 -/

/-- C1 counterexample: with `serializeShadowRoot := false` the serializer
emits the element's public child list, not the `__childNodes` override list
(the claim asserts the override list is used for every option set). -/
theorem c1_counterexample :
    serializeHtml (.node c1Element)
      { serializeShadowRoot := false, pretty := false } = "<div>PUBLIC</div>" ∧
    strContains
      (serializeHtml (.node c1Element)
        { serializeShadowRoot := false, pretty := false }) "PUBLIC" = true ∧
    strContains
      (serializeHtml (.node c1Element)
        { serializeShadowRoot := false, pretty := false }) "OVERRIDE" = false := by
  decide

/-- C1 (amended): when `serializeShadowRoot` is true, an element with a
slot-polyfill override list is serialized from that list only — the output
does not depend on the public child list; when `serializeShadowRoot` is
false, the override list is ignored and the public child list is
serialized. -/
theorem c1_amended (ex : Bool) (t : String) (l : Option String)
    (a : List MAttr) (sh : OShadow) (o ch ch' : MNodes) :
    serNode ex true (.element t l a sh (.mk o) ch) =
      serNode ex true (.element t l a sh (.mk o) ch') ∧
    serNode ex false (.element t l a sh (.mk o) ch) =
      serNode ex false (.element t l a sh .noOverride ch) := by
  constructor <;> simp [serNode]

/-! ## C2 -/

/-- C2: the code contradicts the claim (and its own non-optional return
type): after a spy for `"other"` has been created on the render target, a
call `spyOnEvent("click")` returns `undefined` (here `none`) and registers
nothing, instead of returning an `EventSpy` for `"click"`. -/
theorem c2_spy_lookup_bug :
    spyOnEvent emptyRegistry "other" =
      (some (newSpy "other"),
        { entry := some [newSpy "other"], listeners := ["other"] }) ∧
    spyOnEvent (spyOnEvent emptyRegistry "other").2 "click" =
      (none, (spyOnEvent emptyRegistry "other").2) ∧
    spyOnEvent (spyOnEvent emptyRegistry "other").2 "other" =
      (some (newSpy "other"), (spyOnEvent emptyRegistry "other").2) := by
  decide

/-! ## C4 -/

/-- C4 counterexample: a tree whose own text content spells the sentinel;
with `includeShadow := false` the serialized output still contains
`<mock:shadow-root>`, so "the output never contains the sentinel" fails as
a universally quantified statement. -/
theorem c4_counterexample :
    serializeHtml (.node c4Fragment)
      { serializeShadowRoot := false, pretty := false } =
      "<mock:shadow-root></mock:shadow-root>" ∧
    strContains
      (serializeHtml (.node c4Fragment)
        { serializeShadowRoot := false, pretty := false })
      "<mock:shadow-root>" = true := by
  decide

/-- C4 (amended): with `serializeShadowRoot := false` the serializer itself
emits no shadow-root sentinel: the output is exactly the serialization of
the tree with every shadow tree (and override list) removed, so shadow
content never reaches the output; the sentinel substring can only come from
the tree's own text/comment/attribute content. -/
theorem c4_amended (ex : Bool) (n : MNode) :
    serNode ex false n = serNode ex true (stripShadow n) :=
  serNode_stripShadow ex n

/-! ## C5 -/

/-- C5: the serializer appends a closing tag exactly when the element's
effective tag name (case-preserving `localName`, else lowercased `tagName`)
is outside the fixed void-element set, irrespective of the element's
children. -/
theorem c5_void_elements (ex ss : Bool) (t : String) (l : Option String)
    (a : List MAttr) (sh : OShadow) (ovr : ONodes) (ch : MNodes) :
    (effTagName t l ∈ VOID_ELEMENTS →
      serNode ex ss (.element t l a sh ovr ch) =
        serOpenTag t l a ++ serShadowPart ex ss sh ++
        (match ss, ovr with
         | true, .mk o => serChildNodes ex ss o
         | _, _ => serChildNodes ex ss ch)) ∧
    (effTagName t l ∉ VOID_ELEMENTS →
      serNode ex ss (.element t l a sh ovr ch) =
        serOpenTag t l a ++ serShadowPart ex ss sh ++
        (match ss, ovr with
         | true, .mk o => serChildNodes ex ss o
         | _, _ => serChildNodes ex ss ch) ++
        ("</" ++ effTagName t l ++ ">")) := by
  constructor <;> intro h <;> cases ss <;> cases ovr <;> simp [serNode, h]

/-- C5 witness: a void element (`IMG`, with a child) gets no closing tag; a
non-void element (`DIV`) gets one. -/
theorem c5_witness :
    serNode true true (.element "IMG" none [] .noShadow .noOverride
        (.cons (.text "x") .nil)) =
      serOpenTag "IMG" none [] ++ serShadowPart true true .noShadow ++
        serChildNodes true true (.cons (.text "x") .nil) ∧
    serNode true true (.element "DIV" none [] .noShadow .noOverride .nil) =
      serOpenTag "DIV" none [] ++ serShadowPart true true .noShadow ++
        serChildNodes true true .nil ++ ("</" ++ effTagName "DIV" none ++ ">") :=
  ⟨(c5_void_elements true true "IMG" none [] .noShadow .noOverride
      (.cons (.text "x") .nil)).1 (by decide),
   (c5_void_elements true true "DIV" none [] .noShadow .noOverride .nil).2
      (by decide)⟩

/-! ## C9: the exact-class-set matcher -/

/-- Characters are equal when their code points are. -/
theorem char_eq_of_toNat_eq {a b : Char} (h : a.toNat = b.toNat) : a = b :=
  Char.eq_of_val_eq (UInt32.ext h)

/-- The lexicographic comparison is total. -/
theorem cmpCharsLe_total : ∀ x y, cmpCharsLe x y = true ∨ cmpCharsLe y x = true
  | [], _ => Or.inl rfl
  | _ :: _, [] => Or.inr rfl
  | a :: as, b :: bs => by
    by_cases h1 : a.toNat < b.toNat
    · left; simp [cmpCharsLe, h1]
    · by_cases h2 : b.toNat < a.toNat
      · right; simp [cmpCharsLe, h2]
      · rcases cmpCharsLe_total as bs with h | h
        · left; simp [cmpCharsLe, h1, h2, h]
        · right; simp [cmpCharsLe, h1, h2, h]

/-- The lexicographic comparison is transitive. -/
theorem cmpCharsLe_trans : ∀ x y z, cmpCharsLe x y = true →
    cmpCharsLe y z = true → cmpCharsLe x z = true
  | [], _, _, _, _ => rfl
  | a :: as, [], _, hxy, _ => by simp [cmpCharsLe] at hxy
  | a :: as, b :: bs, [], _, hyz => by simp [cmpCharsLe] at hyz
  | a :: as, b :: bs, c :: cs, hxy, hyz => by
    simp only [cmpCharsLe] at hxy hyz ⊢
    by_cases hab : a.toNat < b.toNat
    · by_cases hbc : b.toNat < c.toNat
      · have hac : a.toNat < c.toNat := by omega
        simp [hac]
      · by_cases hcb : c.toNat < b.toNat
        · simp [hbc, hcb] at hyz
        · have hac : a.toNat < c.toNat := by omega
          simp [hac]
    · by_cases hba : b.toNat < a.toNat
      · simp [hab, hba] at hxy
      · simp [hab, hba] at hxy
        by_cases hbc : b.toNat < c.toNat
        · have hac : a.toNat < c.toNat := by omega
          simp [hac]
        · by_cases hcb : c.toNat < b.toNat
          · simp [hbc, hcb] at hyz
          · simp [hbc, hcb] at hyz
            have hac : ¬ a.toNat < c.toNat := by omega
            have hca : ¬ c.toNat < a.toNat := by omega
            simp [hac, hca]
            exact cmpCharsLe_trans as bs cs hxy hyz

/-- The lexicographic comparison is antisymmetric. -/
theorem cmpCharsLe_antisymm : ∀ x y, cmpCharsLe x y = true →
    cmpCharsLe y x = true → x = y
  | [], [], _, _ => rfl
  | [], _ :: _, _, hyx => by simp [cmpCharsLe] at hyx
  | _ :: _, [], hxy, _ => by simp [cmpCharsLe] at hxy
  | a :: as, b :: bs, hxy, hyx => by
    simp only [cmpCharsLe] at hxy hyx
    by_cases hab : a.toNat < b.toNat <;> by_cases hba : b.toNat < a.toNat <;>
      simp_all
    · omega
    · have hEq : a = b := char_eq_of_toNat_eq (by omega)
      exact ⟨hEq, cmpCharsLe_antisymm as bs hxy hyx⟩

/-- The pass condition of `toMatchClasses` (length check plus element-wise
check over the zip) is equality of the two sorted lists. -/
theorem lenZipAll_iff_eq : ∀ xs ys : List String,
    (xs.length == ys.length &&
      ((xs.zip ys).all fun p => p.1 == p.2)) = true ↔ xs = ys
  | [], [] => by simp
  | [], _ :: _ => by simp
  | _ :: _, [] => by simp
  | x :: xs, y :: ys => by
    have ih := lenZipAll_iff_eq xs ys
    constructor
    · intro h
      simp only [List.zip_cons_cons, List.all_cons, Bool.and_eq_true, beq_iff_eq,
        List.length_cons, Nat.beq_eq_true_eq] at h
      obtain ⟨hlen, hxy, hall⟩ := h
      have hxs : xs = ys := ih.mp (by
        simp only [Bool.and_eq_true, Nat.beq_eq_true_eq]
        exact ⟨by omega, hall⟩)
      simp [hxy, hxs]
    · intro h
      injection h with h1 h2
      subst h1; subst h2
      have hb := ih.mpr rfl
      simp only [List.zip_cons_cons, List.all_cons, Bool.and_eq_true,
        List.length_cons, Nat.beq_eq_true_eq, beq_iff_eq] at hb ⊢
      simpa using hb.2

/-- C9: `toMatchClasses` passes exactly when the element's class list (its
`class` attribute split on whitespace, empty entries removed) is a
permutation of the expected list (empty entries removed): order differences
never matter, any missing or extra class fails. -/
theorem c9_match_classes (t : String) (l : Option String) (a : List MAttr)
    (sh : OShadow) (ovr : ONodes) (ch : MNodes) (classNames : List String) :
    (toMatchClasses (.element t l a sh ovr ch) classNames).pass = true ↔
      (actualClassList (.element t l a sh ovr ch)).Perm
        (expectedClassList classNames) := by
  haveI : IsTotal String strLeRel := ⟨fun a b => cmpCharsLe_total a.data b.data⟩
  haveI : IsTrans String strLeRel := ⟨fun a b c => cmpCharsLe_trans a.data b.data c.data⟩
  haveI : IsAntisymm String strLeRel :=
    ⟨fun x y h1 h2 => by
      have h := cmpCharsLe_antisymm x.data y.data h1 h2
      cases x; cases y; exact congrArg String.mk h⟩
  have hpass : (toMatchClasses (.element t l a sh ovr ch) classNames).pass =
      ((jsSortStrings (actualClassList (.element t l a sh ovr ch))).length ==
        (jsSortStrings (expectedClassList classNames)).length &&
       (((jsSortStrings (actualClassList (.element t l a sh ovr ch))).zip
          (jsSortStrings (expectedClassList classNames))).all
         fun p => p.1 == p.2)) := rfl
  rw [hpass, lenZipAll_iff_eq]
  constructor
  · intro h
    have h' : jsSortStrings (actualClassList (.element t l a sh ovr ch)) =
        jsSortStrings (expectedClassList classNames) := h
    unfold jsSortStrings at h'
    refine (List.perm_insertionSort strLeRel _).symm.trans ?_
    rw [h']
    exact List.perm_insertionSort strLeRel _
  · intro h
    exact List.eq_of_perm_of_sorted
      ((List.perm_insertionSort strLeRel _).trans
        (h.trans (List.perm_insertionSort strLeRel _).symm))
      (List.sorted_insertionSort strLeRel _)
      (List.sorted_insertionSort strLeRel _)

/-! ## Event spy bookkeeping (C7, C10) -/

/-- The listener never changes the spied event name. -/
theorem foldl_listenerStep_eventName :
    ∀ (es : List CEvent) (s : EventSpy),
      (es.foldl listenerStep s).eventName = s.eventName
  | [], _ => rfl
  | e :: es, s => by
    rw [List.foldl_cons, foldl_listenerStep_eventName es]
    rfl

/-- Dispatches append to the event list in order. -/
theorem foldl_listenerStep_events :
    ∀ (es : List CEvent) (s : EventSpy),
      (es.foldl listenerStep s).events = s.events ++ es
  | [], _ => by simp
  | e :: es, s => by
    rw [List.foldl_cons, foldl_listenerStep_events es]
    simp [listenerStep]

/-- `length` always reflects the current event count. -/
theorem foldl_listenerStep_length :
    ∀ (es : List CEvent) (s : EventSpy), s.length = s.events.length →
      (es.foldl listenerStep s).length = s.events.length + es.length
  | [], _, h => by simpa using h
  | e :: es, s, _ => by
    rw [List.foldl_cons]
    have h2 := foldl_listenerStep_length es (listenerStep s e) (by simp [listenerStep])
    rw [h2]
    simp [listenerStep]
    omega

/-- `lastEvent` is reassigned on every captured event. -/
theorem foldl_listenerStep_last :
    ∀ (es : List CEvent) (s : EventSpy), es ≠ [] →
      (es.foldl listenerStep s).lastEvent = es.getLast?
  | e :: es, s, _ => by
    rw [List.foldl_cons]
    by_cases hes : es = []
    · subst hes; simp [listenerStep]
    · rw [foldl_listenerStep_last es _ hes]
      cases es with
      | nil => exact absurd rfl hes
      | cons f fs => simp

/-- Once an event has been captured, `firstEvent` never changes again. -/
theorem foldl_listenerStep_first_frozen :
    ∀ (es : List CEvent) (s : EventSpy), s.events ≠ [] →
      (es.foldl listenerStep s).firstEvent = s.firstEvent
  | [], _, _ => rfl
  | e :: es, s, h => by
    rw [List.foldl_cons, foldl_listenerStep_first_frozen es (listenerStep s e)
      (by simp [listenerStep])]
    cases hse : s.events with
    | nil => exact absurd hse h
    | cons a as => simp [listenerStep, hse]

/-- Starting from a fresh spy, `firstEvent` is the first dispatched event. -/
theorem foldl_listenerStep_first :
    ∀ (es : List CEvent) (s : EventSpy), s.events = [] → es ≠ [] →
      (es.foldl listenerStep s).firstEvent = es.head?
  | e :: es, s, hs, _ => by
    rw [List.foldl_cons]
    by_cases hes : es = []
    · subst hes; simp [listenerStep, hs]
    · rw [foldl_listenerStep_first_frozen es (listenerStep s e)
        (by simp [listenerStep])]
      simp [listenerStep, hs]

/-- C7: after dispatching `es ≠ []`, the spy's list is exactly `es` in
order, `length` is its count, `firstEvent` is the first event (already set
after every non-empty prefix, hence assigned exactly once), `lastEvent` is
the last (equal to the last event of every non-empty prefix, hence
reassigned each time); `toHaveReceivedEventTimes k` passes iff `k` is the
count, and `toHaveNthReceivedEventDetail i d` compares `d` with the detail
of the `i`-th (0-indexed) event. -/
theorem c7_event_spy (nm : String) (es : List CEvent) (h : es ≠ []) :
    (es.foldl listenerStep (newSpy nm)).eventName = nm ∧
    (es.foldl listenerStep (newSpy nm)).events = es ∧
    (es.foldl listenerStep (newSpy nm)).length = es.length ∧
    (es.foldl listenerStep (newSpy nm)).firstEvent = es.head? ∧
    (es.foldl listenerStep (newSpy nm)).lastEvent = es.getLast? ∧
    (∀ p, p ≠ [] → p <+: es →
      (p.foldl listenerStep (newSpy nm)).firstEvent = es.head? ∧
      (p.foldl listenerStep (newSpy nm)).lastEvent = p.getLast?) ∧
    (∀ k, (toHaveReceivedEventTimes (es.foldl listenerStep (newSpy nm)) k).pass
        = true ↔ k = es.length) ∧
    (∀ (store : JStore) (i : Nat) (hi : i < es.length) (d : JVal),
      (toHaveNthReceivedEventDetail store
          (es.foldl listenerStep (newSpy nm)) (i : Int) d).map MatchRes.pass =
        Except.ok (safeEquals store (es.get ⟨i, hi⟩).detail d)) := by
  have hname := foldl_listenerStep_eventName es (newSpy nm)
  have hevents : (es.foldl listenerStep (newSpy nm)).events = es := by
    simpa [newSpy] using foldl_listenerStep_events es (newSpy nm)
  have hlen : (es.foldl listenerStep (newSpy nm)).length = es.length := by
    simpa [newSpy] using foldl_listenerStep_length es (newSpy nm) rfl
  refine ⟨hname, hevents, hlen, ?_, ?_, ?_, ?_, ?_⟩
  · exact foldl_listenerStep_first es (newSpy nm) rfl h
  · exact foldl_listenerStep_last es (newSpy nm) h
  · intro p hp hpre
    refine ⟨?_, foldl_listenerStep_last p (newSpy nm) hp⟩
    rw [foldl_listenerStep_first p (newSpy nm) rfl hp]
    obtain ⟨t, rfl⟩ := hpre
    cases p with
    | nil => exact absurd rfl hp
    | cons a as => simp
  · intro k
    have hp : (toHaveReceivedEventTimes (es.foldl listenerStep (newSpy nm)) k).pass
        = ((es.foldl listenerStep (newSpy nm)).length == k) := rfl
    rw [hp, hlen]
    simp only [beq_iff_eq]
    omega
  · intro store i hi d
    have hlen0 : es.length ≠ 0 := by
      intro h0
      exact h (List.length_eq_zero.mp h0)
    have h0 : ((es.foldl listenerStep (newSpy nm)).length == 0) = false := by
      rw [hlen]
      simpa using hlen0
    have hcond : ¬((i : Int) < 0 ∨
        (es.foldl listenerStep (newSpy nm)).length ≤ i) := by
      rw [hlen]
      omega
    have hget : (es.foldl listenerStep (newSpy nm)).events[i]?
        = some (es.get ⟨i, hi⟩) := by
      rw [hevents]
      simp [List.getElem?_eq_getElem hi]
    simp [toHaveNthReceivedEventDetail, h0, hcond, hget]
    rfl

/-- C7 witness: three dispatched events with details `1`, `2`, `3`:
`firstEvent` has detail `1`, `lastEvent` detail `3`, exactly-3-times passes
while exactly-2-times fails, and the event at 0-based index 1 compares
equal to detail `2`. -/
theorem c7_witness :
    (c7Events.foldl listenerStep (newSpy "myEvent")).firstEvent =
      some ⟨.jnum 1⟩ ∧
    (c7Events.foldl listenerStep (newSpy "myEvent")).lastEvent =
      some ⟨.jnum 3⟩ ∧
    (toHaveReceivedEventTimes
      (c7Events.foldl listenerStep (newSpy "myEvent")) 3).pass = true ∧
    (toHaveReceivedEventTimes
      (c7Events.foldl listenerStep (newSpy "myEvent")) 2).pass ≠ true ∧
    (toHaveNthReceivedEventDetail []
        (c7Events.foldl listenerStep (newSpy "myEvent"))
        ((1 : Nat) : Int) (.jnum 2)).map MatchRes.pass = Except.ok true := by
  obtain ⟨-, -, -, h1, h2, -, h3, h4⟩ :=
    c7_event_spy "myEvent" c7Events (by decide)
  refine ⟨?_, ?_, ?_, ?_, ?_⟩
  · rw [h1]; rfl
  · rw [h2]; rfl
  · exact (h3 3).mpr (by decide)
  · intro hbad
    exact absurd ((h3 2).mp hbad) (by decide)
  · exact (h4 [] 1 (by decide) (.jnum 2)).trans (congrArg Except.ok (by decide))

/-! ## C10: totality of `toHaveNthReceivedEventDetail` -/

/-- A string concatenation whose left part is non-empty is non-empty. -/
theorem append_ne_empty_left (s t : String) (h : s ≠ "") : s ++ t ≠ "" := by
  intro hc
  apply h
  have hd : s.data ++ t.data = [] := congrArg String.data hc
  cases s with
  | mk d =>
    cases d with
    | nil => rfl
    | cons a as => simp at hd

/-- C10: with the spy invariant `length = events.length` (maintained by the
listener), `toHaveNthReceivedEventDetail` never reaches the out-of-bounds
branch: it returns a result for every index, and for an empty spy, a
negative index, or an index at or beyond `length` it returns
`pass := false` with a non-empty explanatory message; `events` is indexed
only when `0 ≤ index < length`. -/
theorem c10_nth_total (store : JStore) (spy : EventSpy) (i : Int) (d : JVal)
    (hwf : spy.length = spy.events.length) :
    (∃ r, toHaveNthReceivedEventDetail store spy i d = .ok r) ∧
    ((spy.length = 0 ∨ i < 0 ∨ (spy.length : Int) ≤ i) →
      ∃ r, toHaveNthReceivedEventDetail store spy i d = .ok r ∧
        r.pass = false ∧ r.message ≠ "") := by
  by_cases h0 : spy.length = 0
  · have hres : toHaveNthReceivedEventDetail store spy i d = .ok
        { pass := false
          message := "Expected event \"" ++ spy.eventName ++
            "\" to have been received with detail, but no events were received" } := by
      simp [toHaveNthReceivedEventDetail, h0]
    refine ⟨⟨_, hres⟩, fun _ => ⟨_, hres, rfl, ?_⟩⟩
    exact append_ne_empty_left _ _ (append_ne_empty_left _ _ (by decide))
  · by_cases hc : i < 0 ∨ (spy.length : Int) ≤ i
    · have hres : toHaveNthReceivedEventDetail store spy i d = .ok
          { pass := false
            message := "Expected event at index " ++ toString i ++
              ", but only " ++ toString spy.length ++ " events were received" } := by
        simp [toHaveNthReceivedEventDetail, h0, hc]
      refine ⟨⟨_, hres⟩, fun _ => ⟨_, hres, rfl, ?_⟩⟩
      exact append_ne_empty_left _ _ (append_ne_empty_left _ _
        (append_ne_empty_left _ _ (append_ne_empty_left _ _ (by decide))))
    · have hlt : i.toNat < spy.events.length := by
        rw [← hwf]
        omega
      obtain ⟨e, he⟩ : ∃ e, spy.events[i.toNat]? = some e := by
        rw [List.getElem?_eq_getElem hlt]
        exact ⟨_, rfl⟩
      have hres : toHaveNthReceivedEventDetail store spy i d = .ok
          { pass := safeEquals store e.detail d
            message :=
              if safeEquals store e.detail d then
                "Expected event at index " ++ toString i ++
                " detail not to equal " ++ safeStringify store d
              else
                "Expected event at index " ++ toString i ++
                " detail to equal " ++ safeStringify store d ++
                ", but got " ++ safeStringify store e.detail } := by
        simp [toHaveNthReceivedEventDetail, h0, hc, he]
      refine ⟨⟨_, hres⟩, fun hor => ?_⟩
      exact absurd hor (by
        push_neg
        refine ⟨h0, ?_, ?_⟩ <;> omega)

/-- C10 witness: a spy with one captured event and index `-1` yields a
failing result with a message, not an error. -/
theorem c10_witness :
    ∃ r, toHaveNthReceivedEventDetail []
        ⟨"n", [⟨.jnum 5⟩], some ⟨.jnum 5⟩, some ⟨.jnum 5⟩, 1⟩ (-1) (.jnum 5) =
        .ok r ∧ r.pass = false ∧ r.message ≠ "" :=
  (c10_nth_total [] ⟨"n", [⟨.jnum 5⟩], some ⟨.jnum 5⟩, some ⟨.jnum 5⟩, 1⟩
    (-1) (.jnum 5) rfl).2 (Or.inr (Or.inl (by decide)))

/-! ## C3: usage errors of the HTML matchers -/

/-- C3: `toEqualHtml` and `toEqualLightHtml` throw an error with a non-empty
message — rather than returning a pass/fail result — exactly when the
received value is null/undefined, promise-like, or not one of
string / element / shadow-root-fragment; on every acceptable value they
return a result. -/
theorem c3_usage_errors (parse : String → String) (r : ReceivedVal)
    (e : String) :
    (badReceived r = true →
      (∃ m, toEqualHtml parse r e = .error m ∧ m ≠ "") ∧
      (∃ m, toEqualLightHtml parse r e = .error m ∧ m ≠ "")) ∧
    (badReceived r = false →
      (∃ res, toEqualHtml parse r e = .ok res) ∧
      (∃ res, toEqualLightHtml parse r e = .ok res)) := by
  cases r with
  | jsNull =>
    exact ⟨fun _ => ⟨⟨_, rfl, by decide⟩, ⟨_, rfl, by decide⟩⟩,
      fun h => Bool.noConfusion h⟩
  | jsUndefined =>
    exact ⟨fun _ => ⟨⟨_, rfl, by decide⟩, ⟨_, rfl, by decide⟩⟩,
      fun h => Bool.noConfusion h⟩
  | promiseLike =>
    exact ⟨fun _ => ⟨⟨_, rfl, by decide⟩, ⟨_, rfl, by decide⟩⟩,
      fun h => Bool.noConfusion h⟩
  | str s =>
    exact ⟨fun h => Bool.noConfusion h, fun _ => ⟨⟨_, rfl⟩, ⟨_, rfl⟩⟩⟩
  | node n =>
    cases n with
    | element t l a sh o ch =>
      exact ⟨fun h => Bool.noConfusion h, fun _ => ⟨⟨_, rfl⟩, ⟨_, rfl⟩⟩⟩
    | fragment cs =>
      exact ⟨fun h => Bool.noConfusion h, fun _ => ⟨⟨_, rfl⟩, ⟨_, rfl⟩⟩⟩
    | text s =>
      exact ⟨fun _ => ⟨⟨_, rfl, by decide⟩, ⟨_, rfl, by decide⟩⟩,
        fun h => Bool.noConfusion h⟩
    | comment s =>
      exact ⟨fun _ => ⟨⟨_, rfl, by decide⟩, ⟨_, rfl, by decide⟩⟩,
        fun h => Bool.noConfusion h⟩

/-- C3 witness: a null received value errors; a string received value gets
a result. -/
theorem c3_witness :
    (∃ m, toEqualHtml (fun s => s) .jsNull "" = .error m ∧ m ≠ "") ∧
    (∃ res, toEqualLightHtml (fun s => s) (.str "x") "x" = .ok res) :=
  ⟨((c3_usage_errors (fun s => s) .jsNull "").1 rfl).1,
   ((c3_usage_errors (fun s => s) (.str "x") "x").2 rfl).2⟩

/-! ## C8: `safeEquals` and the cyclic-reference fallback -/

/-- A key is in an object's key list iff the lookup succeeds. -/
theorem objGet_some_iff (o : JObj) (k : String) :
    (∃ v, objGet o k = some v) ↔ k ∈ o.map Prod.fst := by
  induction o with
  | nil => simp [objGet]
  | cons kv t ih =>
    by_cases hk : kv.1 = k
    · simp [objGet, List.find?, hk]
    · have hne : (kv.1 == k) = false := by simpa using hk
      have hstep : objGet (kv :: t) k = objGet t k := by
        simp [objGet, List.find?, hne]
      rw [hstep]
      simp only [List.map_cons, List.mem_cons]
      constructor
      · intro hv
        exact Or.inr (ih.mp hv)
      · rintro (h | h)
        · exact absurd h.symm hk
        · exact ih.mpr h

/-- The key list of the object at an address (empty for a dangling
address) has no duplicates when the store is well-formed. -/
theorem nodup_keys_at (store : JStore) (hn : storeNodupKeys store) (ra : Nat) :
    (((store.get? ra).getD []).map Prod.fst).Nodup := by
  cases hra : store.get? ra with
  | none => simp
  | some o =>
    simp only [Option.getD_some]
    exact hn o (List.get?_mem hra)

/-- C8: `safeEquals` is total and structured exactly as the claim says:
when both payloads serialize, it is equality of the serialized forms (a
deep structural comparison); when either side fails to serialize (e.g. a
cyclic reference), it degrades to the shallow fallback instead of
propagating the exception; and on a well-formed store the shallow fallback
for two objects is precisely "equal own-key sets and strictly equal values
per key" (strict equality for non-objects). -/
theorem c8_safe_equals (store : JStore) (a b : JVal) :
    (∀ sa sb, jsonStringify store a = some sa →
      jsonStringify store b = some sb → safeEquals store a b = (sa == sb)) ∧
    ((jsonStringify store a = none ∨ jsonStringify store b = none) →
      safeEquals store a b = shallowFallback store a b) ∧
    (storeNodupKeys store →
      (shallowFallback store a b = true ↔ shallowSpec store a b)) := by
  refine ⟨?_, ?_, ?_⟩
  · intro sa sb ha hb
    simp [safeEquals, ha, hb]
  · intro h
    rcases hA : jsonStringify store a with _ | sa <;>
      rcases hB : jsonStringify store b with _ | sb <;>
      simp [safeEquals, hA, hB]
    rcases h with h | h
    · exact absurd hA (h ▸ by simp)
    · exact absurd hB (h ▸ by simp)
  · intro hn
    cases a with
    | jref ra =>
      cases b with
      | jref rb =>
        have da := nodup_keys_at store hn ra
        have db := nodup_keys_at store hn rb
        simp only [shallowFallback, shallowSpec, Bool.and_eq_true,
          beq_iff_eq, List.all_eq_true]
        constructor
        · rintro ⟨hlen, hall⟩
          have hsub : ((store.get? ra).getD []).map Prod.fst ⊆
              ((store.get? rb).getD []).map Prod.fst := by
            intro k hk
            obtain ⟨va, hva⟩ := (objGet_some_iff _ k).mpr hk
            have := hall k hk
            rw [hva] at this
            cases hvb : objGet ((store.get? rb).getD []) k with
            | none => rw [hvb] at this; simp [optStrictEq] at this
            | some vb => exact (objGet_some_iff _ k).mp ⟨vb, hvb⟩
          have hperm : (((store.get? ra).getD []).map Prod.fst).Perm
              (((store.get? rb).getD []).map Prod.fst) :=
            (da.subperm hsub).perm_of_length_le (le_of_eq hlen.symm)
          refine ⟨fun k => ⟨fun hk => hsub hk, fun hk => hperm.mem_iff.mpr hk⟩, ?_⟩
          intro k hk
          obtain ⟨va, hva⟩ := (objGet_some_iff _ k).mpr hk
          have hx := hall k hk
          rw [hva] at hx
          cases hvb : objGet ((store.get? rb).getD []) k with
          | none => rw [hvb] at hx; simp [optStrictEq] at hx
          | some vb =>
            rw [hvb] at hx
            exact ⟨va, vb, hva, rfl, hx⟩
        · rintro ⟨hmem, hvals⟩
          have hperm : (((store.get? ra).getD []).map Prod.fst).Perm
              (((store.get? rb).getD []).map Prod.fst) :=
            (List.perm_ext_iff_of_nodup da db).mpr hmem
          refine ⟨hperm.length_eq, ?_⟩
          intro k hk
          obtain ⟨va, vb, hva, hvb, hx⟩ := hvals k hk
          rw [hva, hvb]
          exact hx
      | jnull => simp [shallowFallback, shallowSpec]
      | jbool _ => simp [shallowFallback, shallowSpec]
      | jnum _ => simp [shallowFallback, shallowSpec]
      | jstr _ => simp [shallowFallback, shallowSpec]
    | jnull => cases b <;> simp [shallowFallback, shallowSpec]
    | jbool _ => cases b <;> simp [shallowFallback, shallowSpec]
    | jnum _ => cases b <;> simp [shallowFallback, shallowSpec]
    | jstr _ => cases b <;> simp [shallowFallback, shallowSpec]

/-- C8 witness: a self-referencing object fails to serialize, and comparing
it with itself silently falls back to the (succeeding) shallow comparison. -/
theorem c8_witness :
    jsonStringify cyclicStore (.jref 0) = none ∧
    safeEquals cyclicStore (.jref 0) (.jref 0) =
      shallowFallback cyclicStore (.jref 0) (.jref 0) ∧
    safeEquals cyclicStore (.jref 0) (.jref 0) = true ∧
    (shallowFallback cyclicStore (.jref 0) (.jref 0) = true ↔
      shallowSpec cyclicStore (.jref 0) (.jref 0)) :=
  ⟨by decide,
   (c8_safe_equals cyclicStore _ _).2.1 (Or.inl (by decide)),
   by decide,
   (c8_safe_equals cyclicStore _ _).2.2 (by
     intro o ho
     simp only [cyclicStore, List.mem_singleton] at ho
     subst ho
     decide)⟩

/-! ## C6: idempotence of `normalizeHtml`

The proof shows that `normChars` maps every list into the `IsNormalChars`
normal form, and fixes every normal-form list. -/

theorem isJsWs_space : isJsWs ' ' = true := by decide

theorem isJsWs_gt : isJsWs '>' = false := by decide

theorem isJsWs_lt : isJsWs '<' = false := by decide

/-- A whitespace character is not `>`. -/
theorem ne_gt_of_ws {c : Char} (h : isJsWs c = true) : (c == '>') = false := by
  cases hq : c == '>' with
  | false => rfl
  | true =>
    have : c = '>' := by simpa using hq
    rw [this] at h
    exact absurd h (by decide)

/-- `spaceOnlyWs` is inherited by members. -/
theorem spaceOnlyWs_mem {l : List Char} (h : spaceOnlyWs l = true) {c : Char}
    (hc : c ∈ l) : isJsWs c = false ∨ c = ' ' := by
  simp only [spaceOnlyWs, List.all_eq_true] at h
  have := h c hc
  rcases Bool.or_eq_true_iff.mp this with h1 | h1
  · left; simpa using h1
  · right; simpa using h1

/-- `collapseWs` emits only plain spaces as whitespace. -/
theorem collapseWs_spaceOnly : ∀ l, spaceOnlyWs (collapseWs l) = true
  | [] => rfl
  | [c] => by
    by_cases h : isJsWs c <;> simp [collapseWs, spaceOnlyWs, h]
  | c₁ :: c₂ :: cs => by
    have ih := collapseWs_spaceOnly (c₂ :: cs)
    by_cases h1 : isJsWs c₁ <;> by_cases h2 : isJsWs c₂ <;>
      simp only [collapseWs, h1, h2, Bool.and_self, Bool.and_false,
        Bool.false_and, if_true, if_false, ite_true, ite_false] <;>
      simp only [spaceOnlyWs, List.all_cons] at ih ⊢ <;>
      simp [ih, h1]

/-- The head of a collapsed non-empty list. -/
theorem collapseWs_head : ∀ (cs : List Char) (c : Char),
    (collapseWs (c :: cs)).head? = some (if isJsWs c then ' ' else c)
  | [], c => by simp [collapseWs]
  | c₂ :: cs, c => by
    have ih := collapseWs_head cs c₂
    by_cases h1 : isJsWs c <;> by_cases h2 : isJsWs c₂ <;>
      simp [collapseWs, h1, h2, ih]

/-- Prepending to a no-adjacent-whitespace list whose head is compatible. -/
theorem noAdjWs_cons (x : Char) (l : List Char) (hl : noAdjWs l = true)
    (hx : ∀ y, l.head? = some y → ¬(isJsWs x = true ∧ isJsWs y = true)) :
    noAdjWs (x :: l) = true := by
  cases l with
  | nil => rfl
  | cons y t =>
    have := hx y rfl
    simp only [noAdjWs, Bool.and_eq_true]
    refine ⟨?_, hl⟩
    cases hxy : isJsWs x <;> cases hyy : isJsWs y <;> simp_all

/-- Tail of a no-adjacent-whitespace list. -/
theorem noAdjWs_tail {x : Char} {l : List Char}
    (h : noAdjWs (x :: l) = true) : noAdjWs l = true := by
  cases l with
  | nil => rfl
  | cons y t =>
    simp only [noAdjWs, Bool.and_eq_true] at h
    exact h.2

/-- `collapseWs` leaves no two adjacent whitespace characters. -/
theorem collapseWs_noAdj : ∀ l, noAdjWs (collapseWs l) = true
  | [] => rfl
  | [c] => by by_cases h : isJsWs c <;> simp [collapseWs, noAdjWs, h]
  | c₁ :: c₂ :: cs => by
    have ih := collapseWs_noAdj (c₂ :: cs)
    by_cases h12 : isJsWs c₁ && isJsWs c₂
    · simpa [collapseWs, h12] using ih
    · have hcol : collapseWs (c₁ :: c₂ :: cs) =
          (if isJsWs c₁ then ' ' else c₁) :: collapseWs (c₂ :: cs) := by
        simp [collapseWs, h12]
      rw [hcol]
      refine noAdjWs_cons _ _ ih ?_
      intro y hy
      rw [collapseWs_head cs c₂] at hy
      have hy' : y = if isJsWs c₂ then ' ' else c₂ := by
        simpa using hy.symm
      subst hy'
      by_cases h1 : isJsWs c₁ <;> by_cases h2 : isJsWs c₂ <;> simp_all

/-- `collapseWs` fixes collapsed lists. -/
theorem collapseWs_fix : ∀ l, spaceOnlyWs l = true → noAdjWs l = true →
    collapseWs l = l
  | [], _, _ => rfl
  | [c], hs, _ => by
    by_cases h : isJsWs c
    · rcases spaceOnlyWs_mem hs (List.mem_singleton_self c) with h' | h'
      · rw [h] at h'; exact absurd h' (by decide)
      · simp [collapseWs, h, h']
    · simp [collapseWs, h]
  | c₁ :: c₂ :: cs, hs, ha => by
    have h12 : (isJsWs c₁ && isJsWs c₂) = false := by
      simp only [noAdjWs, Bool.and_eq_true] at ha
      have := ha.1
      cases h1 : isJsWs c₁ <;> cases h2 : isJsWs c₂ <;> simp_all
    have htail : collapseWs (c₂ :: cs) = c₂ :: cs :=
      collapseWs_fix (c₂ :: cs)
        (by simp only [spaceOnlyWs, List.all_cons, Bool.and_eq_true] at hs ⊢
            exact hs.2)
        (noAdjWs_tail ha)
    by_cases h1 : isJsWs c₁
    · rcases spaceOnlyWs_mem hs (List.mem_cons_self c₁ _) with h' | h'
      · rw [h1] at h'; exact absurd h' (by decide)
      · simp [collapseWs, h12, h1, h', htail]
        intro _
        rw [h'] at h12
        exact (by simpa using h12 : isJsWs ' ' = true → isJsWs c₂ = false) (by decide)
    · simp [collapseWs, h12, h1, htail]

/-- Splitting `noAdjWs` over an append. -/
theorem noAdjWs_append : ∀ (l₁ l₂ : List Char),
    noAdjWs (l₁ ++ l₂) = true ↔
    noAdjWs l₁ = true ∧ noAdjWs l₂ = true ∧
      (∀ x y, l₁.getLast? = some x → l₂.head? = some y →
        ¬(isJsWs x = true ∧ isJsWs y = true))
  | [], l₂ => by simp [noAdjWs]
  | [x], l₂ => by
    cases l₂ with
    | nil => simp [noAdjWs]
    | cons y t =>
      simp only [List.singleton_append]
      rw [show noAdjWs (x :: y :: t) =
        (!(isJsWs x && isJsWs y) && noAdjWs (y :: t)) from rfl]
      simp only [Bool.and_eq_true, List.getLast?_singleton, List.head?_cons]
      constructor
      · rintro ⟨h1, h2⟩
        refine ⟨rfl, h2, ?_⟩
        rintro x' y' hx' hy' ⟨hwx, hwy⟩
        obtain rfl : x = x' := by simpa using hx'
        obtain rfl : y = y' := by simpa using hy'
        rw [hwx, hwy] at h1
        simp at h1
      · rintro ⟨-, h2, h3⟩
        refine ⟨?_, h2⟩
        have := h3 x y rfl rfl
        cases hx : isJsWs x <;> cases hy : isJsWs y <;> simp_all
  | x₁ :: x₂ :: t, l₂ => by
    have ih := noAdjWs_append (x₂ :: t) l₂
    simp only [List.cons_append, noAdjWs, Bool.and_eq_true] at ih ⊢
    rw [List.getLast?_cons_cons]
    constructor
    · rintro ⟨h1, h2⟩
      obtain ⟨h3, h4, h5⟩ := ih.mp h2
      exact ⟨⟨h1, h3⟩, h4, h5⟩
    · rintro ⟨⟨h1, h3⟩, h4, h5⟩
      exact ⟨h1, ih.mpr ⟨h3, h4, h5⟩⟩

/-- Leading whitespace does not affect `afterWsLt`. -/
theorem afterWsLt_wsApp : ∀ (w r : List Char), (∀ c ∈ w, isJsWs c = true) →
    afterWsLt (w ++ r) = afterWsLt r
  | [], r, _ => rfl
  | c :: w, r, h => by
    have hc := h c (List.mem_cons_self c w)
    simp only [List.cons_append, afterWsLt, hc, if_true]
    exact afterWsLt_wsApp w r (fun x hx => h x (List.mem_cons_of_mem c hx))

/-- A pure-whitespace list never reaches a `<`. -/
theorem afterWsLt_allWs (l : List Char) (h : ∀ c ∈ l, isJsWs c = true) :
    afterWsLt l = false := by
  have := afterWsLt_wsApp l [] h
  simpa using this

/-- A pure-whitespace list is not a `\s+<` match. -/
theorem wsThenLt_allWs (l : List Char) (h : ∀ c ∈ l, isJsWs c = true) :
    wsThenLt l = false := by
  cases l with
  | nil => rfl
  | cons c cs =>
    have : afterWsLt cs = false :=
      afterWsLt_allWs cs (fun x hx => h x (List.mem_cons_of_mem c hx))
    simp [wsThenLt, this]

/-- Leading whitespace does not affect `hasGtWsLt`. -/
theorem hasGtWsLt_wsApp : ∀ (w r : List Char), (∀ c ∈ w, isJsWs c = true) →
    hasGtWsLt (w ++ r) = hasGtWsLt r
  | [], r, _ => rfl
  | c :: w, r, h => by
    have hc := ne_gt_of_ws (h c (List.mem_cons_self c w))
    simp only [List.cons_append, hasGtWsLt, hc, Bool.false_and, Bool.false_or]
    exact hasGtWsLt_wsApp w r (fun x hx => h x (List.mem_cons_of_mem c hx))

/-- A pure-whitespace list contains no match. -/
theorem hasGtWsLt_allWs (l : List Char) (h : ∀ c ∈ l, isJsWs c = true) :
    hasGtWsLt l = false := by
  have := hasGtWsLt_wsApp l [] h
  simpa using this

/-- Branch equation: buffering a whitespace character after `>`. -/
theorem remGtWsLtGo_ws {b : Bool} {x : Char} (buf cs : List Char)
    (h1 : (b && isJsWs x) = true) :
    remGtWsLtGo b buf (x :: cs) = remGtWsLtGo b (x :: buf) cs := by
  simp [remGtWsLtGo, h1]

/-- Branch equation: a `>\s+<` match — the buffered whitespace is dropped. -/
theorem remGtWsLtGo_match {b : Bool} {x : Char} (buf cs : List Char)
    (h1 : (b && isJsWs x) = false)
    (h2 : (b && x == '<' && !buf.isEmpty) = true) :
    remGtWsLtGo b buf (x :: cs) = '<' :: remGtWsLtGo false [] cs := by
  simp only [remGtWsLtGo, h1, h2]
  simp

/-- Branch equation: no match — the buffer is flushed, the character is
copied, and the state records whether it was `>`. -/
theorem remGtWsLtGo_else {b : Bool} {x : Char} (buf cs : List Char)
    (h1 : (b && isJsWs x) = false)
    (h2 : (b && x == '<' && !buf.isEmpty) = false) :
    remGtWsLtGo b buf (x :: cs) =
      buf.reverse ++ x :: remGtWsLtGo (x == '>') [] cs := by
  by_cases h3 : (x == '>') = true
  · have hx : x = '>' := by simpa using h3
    subst hx
    simp [remGtWsLtGo, h1, h2]
  · have h3' : (x == '>') = false := by simpa using h3
    simp [remGtWsLtGo, h1, h2, h3']

/-- Every character the `>\s+<` scanner emits comes from the buffer, the
input, or is one of the two brackets. -/
theorem remGtWsLtGo_mem : ∀ (l buf : List Char) (b : Bool) (c : Char),
    c ∈ remGtWsLtGo b buf l → c ∈ buf ∨ c ∈ l ∨ c = '<' ∨ c = '>'
  | [], buf, b, c, h => by
    simp only [remGtWsLtGo, List.mem_reverse] at h
    exact Or.inl h
  | x :: cs, buf, b, c, h => by
    by_cases h1 : (b && isJsWs x) = true
    · rw [remGtWsLtGo_ws buf cs h1] at h
      rcases remGtWsLtGo_mem cs (x :: buf) b c h with h' | h' | h' | h'
      · rcases List.mem_cons.mp h' with h'' | h''
        · exact Or.inr (Or.inl (h'' ▸ List.mem_cons_self x cs))
        · exact Or.inl h''
      · exact Or.inr (Or.inl (List.mem_cons_of_mem x h'))
      · exact Or.inr (Or.inr (Or.inl h'))
      · exact Or.inr (Or.inr (Or.inr h'))
    · have h1' : (b && isJsWs x) = false := by simpa using h1
      by_cases h2 : (b && x == '<' && !buf.isEmpty) = true
      · rw [remGtWsLtGo_match buf cs h1' h2] at h
        rcases List.mem_cons.mp h with h' | h'
        · exact Or.inr (Or.inr (Or.inl h'))
        · rcases remGtWsLtGo_mem cs [] false c h' with h'' | h'' | h'' | h''
          · simp at h''
          · exact Or.inr (Or.inl (List.mem_cons_of_mem x h''))
          · exact Or.inr (Or.inr (Or.inl h''))
          · exact Or.inr (Or.inr (Or.inr h''))
      · have h2' : (b && x == '<' && !buf.isEmpty) = false := by simpa using h2
        rw [remGtWsLtGo_else buf cs h1' h2'] at h
        rcases List.mem_append.mp h with h' | h'
        · exact Or.inl (List.mem_reverse.mp h')
        · rcases List.mem_cons.mp h' with h'' | h''
          · exact Or.inr (Or.inl (h'' ▸ List.mem_cons_self x cs))
          · rcases remGtWsLtGo_mem cs [] (x == '>') c h'' with hm | hm | hm | hm
            · simp at hm
            · exact Or.inr (Or.inl (List.mem_cons_of_mem x hm))
            · exact Or.inr (Or.inr (Or.inl hm))
            · exact Or.inr (Or.inr (Or.inr hm))

/-- The scanner's output head is the input head or some non-whitespace
character. -/
theorem remGtWsLtGo_head : ∀ (l buf : List Char) (b : Bool),
    (remGtWsLtGo b buf l).head? = (buf.reverse ++ l).head? ∨
    ∃ c, (remGtWsLtGo b buf l).head? = some c ∧ isJsWs c = false
  | [], buf, b => Or.inl (by simp [remGtWsLtGo])
  | x :: cs, buf, b => by
    by_cases h1 : (b && isJsWs x) = true
    · rw [remGtWsLtGo_ws buf cs h1]
      have ih := remGtWsLtGo_head cs (x :: buf) b
      rwa [show (x :: buf).reverse ++ cs = buf.reverse ++ x :: cs by simp] at ih
    · have h1' : (b && isJsWs x) = false := by simpa using h1
      by_cases h2 : (b && x == '<' && !buf.isEmpty) = true
      · right
        exact ⟨'<', by rw [remGtWsLtGo_match buf cs h1' h2]; rfl, by decide⟩
      · have h2' : (b && x == '<' && !buf.isEmpty) = false := by simpa using h2
        rw [remGtWsLtGo_else buf cs h1' h2']
        left
        rcases hrev : buf.reverse with _ | ⟨z, zs⟩
        · simp
        · simp

/-- After a `>` (state `true`), the scanner's output never starts with a
whitespace run followed by `<`: matches are deleted. -/
theorem remGtWsLtGo_true_noWsLt : ∀ (cs buf : List Char),
    (∀ c ∈ buf, isJsWs c = true) →
    wsThenLt (remGtWsLtGo true buf cs) = false
  | [], buf, hbuf =>
    wsThenLt_allWs _ (fun c hc => hbuf c (List.mem_reverse.mp hc))
  | x :: cs, buf, hbuf => by
    by_cases h1 : (true && isJsWs x) = true
    · rw [remGtWsLtGo_ws buf cs h1]
      refine remGtWsLtGo_true_noWsLt cs (x :: buf) ?_
      intro c hc
      rcases List.mem_cons.mp hc with rfl | hc'
      · simpa using h1
      · exact hbuf c hc'
    · have h1' : (true && isJsWs x) = false := by simpa using h1
      have hxws : isJsWs x = false := by simpa using h1'
      by_cases h2 : (true && x == '<' && !buf.isEmpty) = true
      · rw [remGtWsLtGo_match buf cs h1' h2]
        simp [wsThenLt, isJsWs_lt]
      · have h2' : (true && x == '<' && !buf.isEmpty) = false := by simpa using h2
        rw [remGtWsLtGo_else buf cs h1' h2']
        by_cases hbuf0 : buf = []
        · subst hbuf0
          simp [wsThenLt, hxws]
        · have hlt : (x == '<') = false := by
            have hie : buf.isEmpty = false := by
              cases buf with
              | nil => exact absurd rfl hbuf0
              | cons y ys => rfl
            rw [hie] at h2'
            simpa using h2'
          rcases hrev : buf.reverse with _ | ⟨z, zs⟩
          · exact absurd (List.reverse_eq_nil_iff.mp hrev) hbuf0
          · have hzw : isJsWs z = true :=
              hbuf z (by rw [← List.mem_reverse, hrev]; exact List.mem_cons_self z zs)
            have hzs : ∀ c ∈ zs, isJsWs c = true := fun c hc =>
              hbuf c (by rw [← List.mem_reverse, hrev]; exact List.mem_cons_of_mem z hc)
            have hAfter := afterWsLt_wsApp zs
              (x :: remGtWsLtGo (x == '>') [] cs) hzs
            simp [wsThenLt, hzw, hAfter, afterWsLt, hxws, hlt]

/-- The scanner's output contains no `>\s+<` match. -/
theorem remGtWsLtGo_noMatch : ∀ (l buf : List Char) (b : Bool),
    (∀ c ∈ buf, isJsWs c = true) →
    hasGtWsLt (remGtWsLtGo b buf l) = false
  | [], buf, _, hbuf =>
    hasGtWsLt_allWs _ (fun c hc => hbuf c (List.mem_reverse.mp hc))
  | x :: cs, buf, b, hbuf => by
    by_cases h1 : (b && isJsWs x) = true
    · rw [remGtWsLtGo_ws buf cs h1]
      refine remGtWsLtGo_noMatch cs (x :: buf) b ?_
      intro c hc
      obtain ⟨-, hxw⟩ : b = true ∧ isJsWs x = true := by simpa using h1
      rcases List.mem_cons.mp hc with rfl | hc'
      · exact hxw
      · exact hbuf c hc'
    · have h1' : (b && isJsWs x) = false := by simpa using h1
      by_cases h2 : (b && x == '<' && !buf.isEmpty) = true
      · rw [remGtWsLtGo_match buf cs h1' h2]
        have ih := remGtWsLtGo_noMatch cs [] false (by simp)
        simp [hasGtWsLt, ih]
      · have h2' : (b && x == '<' && !buf.isEmpty) = false := by simpa using h2
        rw [remGtWsLtGo_else buf cs h1' h2']
        rw [hasGtWsLt_wsApp buf.reverse _
          (fun c hc => hbuf c (List.mem_reverse.mp hc))]
        have ih := remGtWsLtGo_noMatch cs [] (x == '>') (by simp)
        by_cases h3 : (x == '>') = true
        · have hws := remGtWsLtGo_true_noWsLt cs [] (by simp)
          rw [h3] at ih ⊢
          simp [hasGtWsLt, h3, hws, ih]
        · have h3' : (x == '>') = false := by simpa using h3
          rw [h3'] at ih
          simp [hasGtWsLt, h3', ih]

/-- On match-free input the scanner is the identity (after flushing its
buffer). -/
theorem remGtWsLtGo_id : ∀ (l buf : List Char) (b : Bool),
    (∀ c ∈ buf, isJsWs c = true) → (b = false → buf = []) →
    (b = true → wsThenLt (buf.reverse ++ l) = false) →
    hasGtWsLt l = false →
    remGtWsLtGo b buf l = buf.reverse ++ l
  | [], buf, b, _, _, _, _ => by simp [remGtWsLtGo]
  | x :: cs, buf, b, hbuf, hb0, hb1, hmatch => by
    have hmatch' : (x == '>' && wsThenLt cs) = false ∧ hasGtWsLt cs = false := by
      have : ((x == '>' && wsThenLt cs) || hasGtWsLt cs) = false := hmatch
      simpa using this
    by_cases h1 : (b && isJsWs x) = true
    · obtain ⟨hb, hxw⟩ : b = true ∧ isJsWs x = true := by simpa using h1
      rw [remGtWsLtGo_ws buf cs h1]
      have hrec := remGtWsLtGo_id cs (x :: buf) b
        (by
          intro c hc
          rcases List.mem_cons.mp hc with rfl | hc'
          · exact hxw
          · exact hbuf c hc')
        (fun hf => by simp [hf] at hb)
        (by
          intro _
          have := hb1 hb
          rwa [show (x :: buf).reverse ++ cs = buf.reverse ++ x :: cs by simp])
        hmatch'.2
      rw [hrec]
      simp
    · have h1' : (b && isJsWs x) = false := by simpa using h1
      by_cases h2 : (b && x == '<' && !buf.isEmpty) = true
      · exfalso
        obtain ⟨⟨hb, hxlt'⟩, hbufe⟩ :
            (b = true ∧ (x == '<') = true) ∧ buf.isEmpty = false := by
          simpa using h2
        have hxlt : x = '<' := by simpa using hxlt'
        have hbufne : buf ≠ [] := by
          intro hc
          rw [hc] at hbufe
          simp at hbufe
        have hws := hb1 hb
        rcases hrev : buf.reverse with _ | ⟨z, zs⟩
        · exact absurd (List.reverse_eq_nil_iff.mp hrev) hbufne
        · rw [hrev, hxlt] at hws
          have hzw : isJsWs z = true :=
            hbuf z (by rw [← List.mem_reverse, hrev]; exact List.mem_cons_self z zs)
          have hzs : ∀ c ∈ zs, isJsWs c = true := fun c hc =>
            hbuf c (by rw [← List.mem_reverse, hrev]; exact List.mem_cons_of_mem z hc)
          have hafter := afterWsLt_wsApp zs ('<' :: cs) hzs
          have hcontr : wsThenLt (z :: (zs ++ '<' :: cs)) = false := by
            simpa using hws
          simp [wsThenLt, hzw, hafter, afterWsLt, isJsWs_lt] at hcontr
      · have h2' : (b && x == '<' && !buf.isEmpty) = false := by simpa using h2
        rw [remGtWsLtGo_else buf cs h1' h2']
        have hrec := remGtWsLtGo_id cs [] (x == '>')
          (by simp)
          (fun _ => rfl)
          (by
            intro h3
            have : wsThenLt cs = false := by
              have := hmatch'.1
              rw [h3] at this
              simpa using this
            simpa using this)
          hmatch'.2
        rw [hrec]
        simp

/-- The scanner preserves the no-adjacent-whitespace property. -/
theorem remGtWsLtGo_noAdj : ∀ (l buf : List Char) (b : Bool),
    (∀ c ∈ buf, isJsWs c = true) → (b = false → buf = []) →
    noAdjWs (buf.reverse ++ l) = true →
    noAdjWs (remGtWsLtGo b buf l) = true
  | [], buf, b, _, _, h => by
    rw [show remGtWsLtGo b buf [] = buf.reverse from rfl]
    simpa using h
  | x :: cs, buf, b, hbuf, hb0, h => by
    obtain ⟨hleft, hright, hlink⟩ := (noAdjWs_append buf.reverse (x :: cs)).mp h
    by_cases h1 : (b && isJsWs x) = true
    · obtain ⟨hb, hxw⟩ : b = true ∧ isJsWs x = true := by simpa using h1
      rw [remGtWsLtGo_ws buf cs h1]
      refine remGtWsLtGo_noAdj cs (x :: buf) b ?_ (fun hf => by simp [hf] at hb) ?_
      · intro c hc
        rcases List.mem_cons.mp hc with rfl | hc'
        · exact hxw
        · exact hbuf c hc'
      · rwa [show (x :: buf).reverse ++ cs = buf.reverse ++ x :: cs by simp]
    · have h1' : (b && isJsWs x) = false := by simpa using h1
      have hcs : noAdjWs cs = true := noAdjWs_tail hright
      by_cases h2 : (b && x == '<' && !buf.isEmpty) = true
      · rw [remGtWsLtGo_match buf cs h1' h2]
        refine noAdjWs_cons _ _ ?_ ?_
        · exact remGtWsLtGo_noAdj cs [] false (by simp) (fun _ => rfl)
            (by simpa using hcs)
        · intro y _ hcontra
          exact absurd hcontra.1 (by decide)
      · have h2' : (b && x == '<' && !buf.isEmpty) = false := by simpa using h2
        rw [remGtWsLtGo_else buf cs h1' h2']
        refine (noAdjWs_append buf.reverse _).mpr ⟨hleft, ?_, ?_⟩
        · refine noAdjWs_cons _ _ ?_ ?_
          · exact remGtWsLtGo_noAdj cs [] (x == '>') (by simp) (fun _ => rfl)
              (by simpa using hcs)
          · intro y hy hcontra
            rcases remGtWsLtGo_head cs [] (x == '>') with hh | ⟨c', hc', hc'w⟩
            · rw [hy] at hh
              simp only [List.reverse_nil, List.nil_append] at hh
              cases cs with
              | nil => simp at hh
              | cons c' cs' =>
                have hy' : y = c' := by simpa using hh
                subst hy'
                have := hright
                simp only [noAdjWs, Bool.and_eq_true] at this
                rcases this with ⟨hpair, -⟩
                rw [hcontra.1, hcontra.2] at hpair
                simp at hpair
            · rw [hy] at hc'
              have hy' : y = c' := by simpa using hc'
              subst hy'
              rw [hcontra.2] at hc'w
              simp at hc'w
        · intro a y ha hy
          have hy' : y = x := by simpa using hy.symm
          subst hy'
          exact hlink a y ha rfl

/-- The scanner emits only plain-space whitespace when fed such input. -/
theorem remGtWsLtGo_spaceOnly (l buf : List Char) (b : Bool)
    (hbuf : spaceOnlyWs buf = true) (hl : spaceOnlyWs l = true) :
    spaceOnlyWs (remGtWsLtGo b buf l) = true := by
  simp only [spaceOnlyWs, List.all_eq_true] at hbuf hl ⊢
  intro c hc
  rcases remGtWsLtGo_mem l buf b c hc with h | h | h | h
  · exact hbuf c h
  · exact hl c h
  · subst h; decide
  · subst h; decide

/-- `spaceOnlyWs` restricts to subsets. -/
theorem spaceOnlyWs_subset {p l : List Char} (h : p ⊆ l)
    (hs : spaceOnlyWs l = true) : spaceOnlyWs p = true := by
  simp only [spaceOnlyWs, List.all_eq_true] at hs ⊢
  exact fun c hc => hs c (h hc)

/-- `noAdjWs` restricts to suffixes. -/
theorem noAdjWs_suffix {s l : List Char} (h : s <:+ l)
    (ha : noAdjWs l = true) : noAdjWs s = true := by
  obtain ⟨t, rfl⟩ := h
  exact ((noAdjWs_append t s).mp ha).2.1

/-- `noAdjWs` restricts to prefixes. -/
theorem noAdjWs_front {p l : List Char} (h : p <+: l)
    (ha : noAdjWs l = true) : noAdjWs p = true := by
  obtain ⟨t, rfl⟩ := h
  exact ((noAdjWs_append p t).mp ha).1

/-- Match-freedom restricts to suffixes. -/
theorem hasGtWsLt_append_false : ∀ (t s : List Char),
    hasGtWsLt (t ++ s) = false → hasGtWsLt s = false
  | [], _, h => h
  | c :: t, s, h => by
    have h' : hasGtWsLt (t ++ s) = false := by
      have : ((c == '>' && wsThenLt (t ++ s)) || hasGtWsLt (t ++ s)) = false := h
      simpa using (Bool.or_eq_false_iff.mp this).2
    exact hasGtWsLt_append_false t s h'

/-- `afterWsLt` is monotone from a prefix to the whole list. -/
theorem afterWsLt_mono_front : ∀ (p l : List Char), p <+: l →
    afterWsLt p = true → afterWsLt l = true
  | [], _, _, h => by simp [afterWsLt] at h
  | c :: p', l, hp, h => by
    cases l with
    | nil => simp at hp
    | cons d l' =>
      obtain ⟨rfl, hp'⟩ := (List.cons_prefix_cons.mp hp)
      by_cases hw : isJsWs c = true
      · rw [show afterWsLt (c :: p') = afterWsLt p' by simp [afterWsLt, hw]] at h
        rw [show afterWsLt (c :: l') = afterWsLt l' by simp [afterWsLt, hw]]
        exact afterWsLt_mono_front p' l' hp' h
      · have hw' : isJsWs c = false := by simpa using hw
        rw [show afterWsLt (c :: p') = (c == '<') by simp [afterWsLt, hw']] at h
        rw [show afterWsLt (c :: l') = (c == '<') by simp [afterWsLt, hw']]
        exact h

/-- `wsThenLt` is monotone from a prefix to the whole list. -/
theorem wsThenLt_mono_front (p l : List Char) (hp : p <+: l)
    (h : wsThenLt p = true) : wsThenLt l = true := by
  cases p with
  | nil => simp [wsThenLt] at h
  | cons c p' =>
    cases l with
    | nil => simp at hp
    | cons d l' =>
      obtain ⟨rfl, hp'⟩ := (List.cons_prefix_cons.mp hp)
      obtain ⟨hw, ha⟩ : isJsWs c = true ∧ afterWsLt p' = true := by
        simpa [wsThenLt] using h
      simp [wsThenLt, hw, afterWsLt_mono_front p' l' hp' ha]

/-- A match inside a prefix is a match in the whole list. -/
theorem hasGtWsLt_mono_front : ∀ (p l : List Char), p <+: l →
    hasGtWsLt p = true → hasGtWsLt l = true
  | [], _, _, h => by simp [hasGtWsLt] at h
  | c :: p', l, hp, h => by
    cases l with
    | nil => simp at hp
    | cons d l' =>
      obtain ⟨rfl, hp'⟩ := (List.cons_prefix_cons.mp hp)
      rcases (by simpa [hasGtWsLt] using h :
          (c = '>' ∧ wsThenLt p' = true) ∨ hasGtWsLt p' = true) with ⟨hgt, hws⟩ | h'
      · subst hgt
        simp [hasGtWsLt, wsThenLt_mono_front p' l' hp' hws]
      · simp [hasGtWsLt, hasGtWsLt_mono_front p' l' hp' h']

/-- The head after dropping leading whitespace is not whitespace. -/
theorem headNotWs_dropWhile : ∀ l : List Char, headNotWs (l.dropWhile isJsWs)
  | [] => by intro c hc; simp at hc
  | a :: as => by
    intro c hc
    by_cases ha : isJsWs a = true
    · rw [List.dropWhile_cons, if_pos ha] at hc
      exact headNotWs_dropWhile as c hc
    · rw [List.dropWhile_cons, if_neg ha] at hc
      have hca : c = a := by simpa using hc.symm
      subst hca
      simpa using ha

/-- A non-empty prefix has the same head. -/
theorem head?_of_leading {p l : List Char} (h : p <+: l) (hp : p ≠ []) :
    p.head? = l.head? := by
  obtain ⟨t, rfl⟩ := h
  cases p with
  | nil => exact absurd rfl hp
  | cons a as => rfl

/-- Dropping trailing whitespace yields a prefix. -/
theorem dropTrailingWs_leading (l : List Char) : dropTrailingWs l <+: l := by
  have h := (List.dropWhile_suffix (l := l.reverse) isJsWs).reverse
  simpa [dropTrailingWs] using h

/-- The last character after dropping trailing whitespace is not
whitespace. -/
theorem lastNotWs_dropTrailingWs (l : List Char) :
    lastNotWs (dropTrailingWs l) := by
  intro c hc
  unfold dropTrailingWs at hc
  rw [List.getLast?_reverse] at hc
  exact headNotWs_dropWhile l.reverse c hc

/-- `trimChars` output starts with a non-whitespace character. -/
theorem headNotWs_trimChars (l : List Char) : headNotWs (trimChars l) := by
  intro c hc
  unfold trimChars at hc
  by_cases hne : dropTrailingWs (l.dropWhile isJsWs) = []
  · rw [hne] at hc; simp at hc
  · rw [head?_of_leading (dropTrailingWs_leading _) hne] at hc
    exact headNotWs_dropWhile l c hc

/-- `trimChars` output ends with a non-whitespace character. -/
theorem lastNotWs_trimChars (l : List Char) : lastNotWs (trimChars l) :=
  lastNotWs_dropTrailingWs _

/-- `dropWhile` fixes a list whose head is not whitespace. -/
theorem dropWhile_id_of_headNotWs (l : List Char) (h : headNotWs l) :
    l.dropWhile isJsWs = l := by
  cases l with
  | nil => rfl
  | cons a as =>
    rw [List.dropWhile_cons, if_neg (by simp [h a rfl])]

/-- `dropTrailingWs` fixes a list whose last character is not whitespace. -/
theorem dropTrailingWs_id (l : List Char) (h : lastNotWs l) :
    dropTrailingWs l = l := by
  unfold dropTrailingWs
  rw [dropWhile_id_of_headNotWs l.reverse ?_, List.reverse_reverse]
  intro c hc
  rw [List.head?_reverse] at hc
  exact h c hc

/-- `trimChars` fixes trimmed lists. -/
theorem trimChars_id (l : List Char) (hh : headNotWs l) (hl : lastNotWs l) :
    trimChars l = l := by
  unfold trimChars
  rw [dropWhile_id_of_headNotWs l hh, dropTrailingWs_id l hl]

/-- `normChars` always lands in the normal form. -/
theorem normChars_isNormal (l : List Char) : IsNormalChars (normChars l) := by
  have hso : spaceOnlyWs (remGtWsLt (collapseWs l)) = true :=
    remGtWsLtGo_spaceOnly _ [] false rfl (collapseWs_spaceOnly l)
  have hna : noAdjWs (remGtWsLt (collapseWs l)) = true :=
    remGtWsLtGo_noAdj _ [] false (by simp) (fun _ => rfl)
      (by simpa using collapseWs_noAdj l)
  have hnm : hasGtWsLt (remGtWsLt (collapseWs l)) = false :=
    remGtWsLtGo_noMatch _ [] false (by simp)
  have hsuf : (remGtWsLt (collapseWs l)).dropWhile isJsWs <:+
      remGtWsLt (collapseWs l) := List.dropWhile_suffix _
  have hsub : trimChars (remGtWsLt (collapseWs l)) <+:
      (remGtWsLt (collapseWs l)).dropWhile isJsWs := dropTrailingWs_leading _
  have hnm' : hasGtWsLt ((remGtWsLt (collapseWs l)).dropWhile isJsWs) = false := by
    obtain ⟨t, ht⟩ := hsuf
    exact hasGtWsLt_append_false t _ (by rw [ht]; exact hnm)
  refine ⟨?_, ?_, ?_, ?_, ?_⟩
  · exact spaceOnlyWs_subset (fun c hc => hsuf.subset (hsub.subset hc)) hso
  · exact noAdjWs_front hsub (noAdjWs_suffix hsuf hna)
  · cases hq : hasGtWsLt (normChars l) with
    | false => rfl
    | true =>
      have := hasGtWsLt_mono_front _ _ hsub hq
      rw [this] at hnm'
      exact hnm' 
  · exact headNotWs_trimChars _
  · exact lastNotWs_trimChars _

/-- `normChars` fixes every normal-form list. -/
theorem normChars_fix (l : List Char) (h : IsNormalChars l) : normChars l = l := by
  obtain ⟨hso, hna, hnm, hh, hl⟩ := h
  unfold normChars
  rw [collapseWs_fix l hso hna]
  rw [show remGtWsLt l = l from by
    have := remGtWsLtGo_id l [] false (by simp) (fun _ => rfl)
      (fun hf => Bool.noConfusion hf) hnm
    simpa [remGtWsLt] using this]
  exact trimChars_id l hh hl

/-- C6: `normalizeHtml` is idempotent. -/
theorem c6_normalize_idempotent (s : String) :
    normalizeHtml (normalizeHtml s) = normalizeHtml s := by
  unfold normalizeHtml
  rw [show (String.mk (normChars s.data)).data = normChars s.data from rfl]
  rw [normChars_fix _ (normChars_isNormal s.data)]
